import Mathlib

/-!
Verification of the `dictwrapper` nested-mapping engine (`dictwrapper/nested.py`).

The Python code stores, in every `NestedMapping`, an ordered dictionary
`self.data` mapping keys to values; a value is a scalar/opaque payload, a plain
(unwrapped) Python `dict`, or another `NestedMapping`.  We model `data` as an
ordered association list whose values are given by the inductive type `Val`
below; a genuine Python dictionary never holds the same key twice, which is
captured by well-formedness hypotheses (`List.Nodup` on key lists) where they
are needed.  Errors (`KeyError` and its subclass `MultipleKeyError`) are
modelled by the type `PyErr`.  The `DictWrapperStub` base class is not part
of the sources; as `NestedMapping`'s code requires, it is taken to store the
constructor's dictionary argument unchanged as `self.data`.
-/

set_option maxHeartbeats 1000000

namespace DictWrapper

/-- Keys of the mappings (Python hashables, typically strings). -/
abbrev Key := String

/-- A Python value stored inside a `NestedMapping`'s `data` dictionary:
either an opaque scalar payload (`prim`, also covering lists/tuples, which
the code never inspects), a plain un-wrapped Python `dict` (`pdict`), or a
wrapped `NestedMapping` node carrying its own `data` dictionary (`nm`). -/
inductive Val : Type where
  | prim : Nat → Val
  | pdict : List (Key × Val) → Val
  | nm : List (Key × Val) → Val
deriving Repr

/-- The `data` dictionary of a node: an ordered association list. -/
abbrev Dict := List (Key × Val)

/-- Python exceptions escaping the nested-mapping code: `KeyError(key)`,
`MultipleKeyError(key)` (`class MultipleKeyError(KeyError)`), and the
`IndexError` that `iter_stack.pop(-1)` raises on an empty stack. -/
inductive PyErr : Type where
  | keyError : Key → PyErr
  | multipleKeyError : Key → PyErr
  | indexError : PyErr
deriving DecidableEq, Repr

/-- Whether `except KeyError` catches the exception.  It catches
`multipleKeyError` because `MultipleKeyError` is declared as a subclass of
`KeyError` (`nested.py`, line 13); `IndexError` is unrelated to `KeyError`
and is not caught. -/
def PyErr.caughtByKeyError : PyErr → Bool
  | .keyError _ => true
  | .multipleKeyError _ => true
  | .indexError => false

/-- The keys of a dictionary, in insertion order (`iter(d)` / `d.keys()`). -/
def keysOf (d : Dict) : List Key := d.map Prod.fst

/-- Python `d[k]` as a partial read: the value stored at `k`. -/
def lookupD : Dict → Key → Option Val
  | [], _ => none
  | (k0, v) :: rest, k => if k0 = k then some v else lookupD rest k

/-- Python `k in d`. -/
def hasKey (d : Dict) (k : Key) : Bool := (lookupD d k).isSome

/-- Python `d[k] = v`: overwrite in place if the key exists, else append. -/
def setK : Dict → Key → Val → Dict
  | [], k, v => [(k, v)]
  | (k0, v0) :: rest, k, v =>
      if k0 = k then (k0, v) :: rest else (k0, v0) :: setK rest k v

/-- Python `del d[k]` for a key that is present: drop the entry. -/
def delK : Dict → Key → Dict
  | [], _ => []
  | (k0, v0) :: rest, k => if k0 = k then rest else (k0, v0) :: delK rest k

/-- `NestedMapping.get_children` (`nested.py`, lines 141-142): the local
entries whose value is a `NestedMapping`, paired with that child's data. -/
def get_children (d : Dict) : List (Key × Dict) :=
  d.filterMap (fun e => match e.2 with | .nm c => some (e.1, c) | _ => none)

/-- `NestedMapping.get_leaves` (`nested.py`, lines 144-145): the local
entries whose value is not a `NestedMapping`. -/
def get_leaves (d : Dict) : Dict :=
  d.filter (fun e => match e.2 with | .nm _ => false | _ => true)

/-- `n` is a node of the tree rooted at `d`: either the root itself or a node
of the subtree stored under some `NestedMapping` entry. -/
inductive SubNode : Dict → Dict → Prop
  | refl (d : Dict) : SubNode d d
  | step {d : Dict} {k : Key} {c n : Dict} :
      (k, Val.nm c) ∈ d → SubNode c n → SubNode d n

mutual

/-- `NestedMapping.find_data_` (`nested.py`, lines 147-187), with the owning
dictionary reported as a *path* of branch keys from the root (the structural
handle for the alias the Python code returns).  The source first records the
local dictionary as candidate when `key in self.data` and then loops over the
children; each successful recursive call overwrites `result`.  In the source,
`raise MultipleKeyError(key)` sits inside the same `try` whose
`except KeyError: pass` clause also matches `MultipleKeyError` (a subclass of
`KeyError`), so that raise is swallowed on the spot and the loop proceeds with
the freshly overwritten `result`; a failing recursive call is likewise
swallowed and leaves the accumulator unchanged. -/
def find_data (d : Dict) (key : Key) : Except PyErr (List Key) :=
  match findFold key d (if hasKey d key then some [] else none) with
  | some p => .ok p
  | none => .error (.keyError key)
termination_by (sizeOf d, 1)

/-- The `for _, branch in branches:` loop of `find_data_`, folded directly
over the data list (skipping non-`NestedMapping` entries exactly as
`get_children` would).  The accumulator is `none` when `found` is false and
`some result` when `found` is true; the source keeps those two in lockstep. -/
def findFold (key : Key) : Dict → Option (List Key) → Option (List Key)
  | [], acc => acc
  | (k0, .nm c) :: rest, acc =>
      findFold key rest
        (match find_data c key with
         | .ok p => some (k0 :: p)
         | .error _ => acc)
  | _ :: rest, acc => findFold key rest acc
termination_by d _ => (sizeOf d, 0)

end

/-- Follow a path of branch keys down the tree: the dictionary a handle
returned by `find_data` points at. -/
def getData : Dict → List Key → Option Dict
  | d, [] => some d
  | d, k :: p =>
      match lookupD d k with
      | some (.nm c) => getData c p
      | _ => none

/-- Rewrite the dictionary at the end of a path with `f`, leaving the rest of
the tree untouched: mutation through the alias `find_data_` returns. -/
def modAtPath (f : Dict → Dict) : Dict → List Key → Dict
  | d, [] => f d
  | d, k :: p =>
      d.map (fun e =>
        if e.1 = k then
          match e.2 with
          | .nm c => (e.1, Val.nm (modAtPath f c p))
          | _ => e
        else e)

/-- `NestedMapping.__getitem__` (`nested.py`, lines 103-111):
`return self.find_data_(item)[item]`.  The fall-through branches model the
`KeyError` a dictionary read raises when the key is absent; for genuine
dictionaries (no key repeated inside a single node) the handle returned by
`find_data` is a valid path to a dictionary containing the key, so those
branches are unreachable (see `getData_valid`). -/
def getitem (d : Dict) (key : Key) : Except PyErr Val :=
  match find_data d key with
  | .error e => .error e
  | .ok p =>
      match getData d p with
      | some owner =>
          match lookupD owner key with
          | some v => .ok v
          | none => .error (.keyError key)
      | none => .error (.keyError key)

/-- `NestedMapping.__setitem__` (`nested.py`, lines 113-124): write through
the owner returned by `find_data_`; on `except KeyError` (which also matches
`MultipleKeyError`, its subclass) insert at the top level instead. -/
def setitem (d : Dict) (key : Key) (v : Val) : Dict :=
  match find_data d key with
  | .ok p => modAtPath (fun o => setK o key v) d p
  | .error _ => setK d key v

/-- `NestedMapping.__delitem__` (`nested.py`, lines 126-127):
`del self.find_data_(key)[key]`; an exception from `find_data_` propagates. -/
def delitem (d : Dict) (key : Key) : Except PyErr Dict :=
  match find_data d key with
  | .ok p => .ok (modAtPath (fun o => delK o key) d p)
  | .error e => .error e

/-- `__setitem__` as a state transformer: the raised exception (if any)
paired with the post-state of the tree.  `find_data_` itself never mutates,
and both error kinds it can raise are caught by the `except KeyError` clause,
so the write always completes. -/
def setitemSt (d : Dict) (key : Key) (v : Val) : Except PyErr Unit × Dict :=
  match find_data d key with
  | .ok p => (.ok (), modAtPath (fun o => setK o key v) d p)
  | .error _ => (.ok (), setK d key v)

/-- `__delitem__` as a state transformer: when `find_data_` raises, the
exception propagates before any write happened, so the post-state is the
unchanged tree. -/
def delitemSt (d : Dict) (key : Key) : Except PyErr Unit × Dict :=
  match find_data d key with
  | .ok p => (.ok (), modAtPath (fun o => delK o key) d p)
  | .error e => (.error e, d)

mutual

/-- The paths (from the given root) of all nodes whose local `data` contains
`key`, in the order `find_data_` inspects them: the local dictionary first,
then each `NestedMapping` child in insertion order, recursively. -/
def occPaths (d : Dict) (key : Key) : List (List Key) :=
  (if hasKey d key then [([] : List Key)] else []) ++ occFold key d
termination_by (sizeOf d, 1)

/-- Occurrence paths contributed by the `NestedMapping` children of a node. -/
def occFold (key : Key) : Dict → List (List Key)
  | [] => []
  | (k0, .nm c) :: rest => (occPaths c key).map (k0 :: ·) ++ occFold key rest
  | _ :: rest => occFold key rest
termination_by d => (sizeOf d, 0)

end

mutual

/-- Every key of every `data` dictionary in the tree, in preorder: the keys
`find_data_`'s full traversal can see.  Keys inside a plain (un-wrapped)
`dict` value are *not* included, since the traversal never descends into
values that are not `NestedMapping`s. -/
def allKeys : Dict → List Key
  | [] => []
  | (k, v) :: rest => k :: (valKeys v ++ allKeys rest)
termination_by d => sizeOf d

/-- Keys contributed by a stored value: only a `NestedMapping` exposes its
contents to the traversal. -/
def valKeys : Val → List Key
  | .nm c => allKeys c
  | _ => []
termination_by v => sizeOf v

end

/-- The keys contributed to `allKeys` by the stored values of a node (its
local keys excluded). -/
def valsKeys : Dict → List Key
  | [] => []
  | (_, v) :: rest => valKeys v ++ valsKeys rest

/-- The recursive wrapping performed by `NestedMapping.__init__` with
`recursive=True` (`nested.py`, lines 82-85): every entry whose value is a
plain `dict` is replaced, in place, by a `NestedMapping` built recursively;
values that are already `NestedMapping`s (or are not dictionaries at all)
are left untouched. -/
def wrapRec : Dict → Dict
  | [] => []
  | (k, .pdict c) :: rest => (k, Val.nm (wrapRec c)) :: wrapRec rest
  | e :: rest => e :: wrapRec rest

mutual

/-- `NestedMapping.__len__` (`nested.py`, lines 132-139). -/
def nmSize (d : Dict) : Nat :=
  if (get_children d).length = 0 then d.length
  else d.length - (get_children d).length + sizeSum d
termination_by (sizeOf d, 1)

/-- `sum([len(child) for _, child in children])`, folded over the data list
(skipping non-`NestedMapping` entries exactly as `get_children` does). -/
def sizeSum : Dict → Nat
  | [] => 0
  | (_, .nm c) :: rest => nmSize c + sizeSum rest
  | _ :: rest => sizeSum rest
termination_by d => (sizeOf d, 0)

end

/-- The leaf keys of the tree in depth-first order: a branch entry
contributes the leaf keys of its subtree, any other entry contributes its own
key. -/
def leafKeys : Dict → List Key
  | [] => []
  | (_, .nm c) :: rest => leafKeys c ++ leafKeys rest
  | (k, _) :: rest => k :: leafKeys rest

/-- The branch-entry keys of the tree (names of `NestedMapping` entries at
every depth). -/
def branchKeys : Dict → List Key
  | [] => []
  | (k, .nm c) :: rest => k :: (branchKeys c ++ branchKeys rest)
  | _ :: rest => branchKeys rest

mutual

/-- `get_leaves()` applied recursively to every node: the keys for which
`leaves()` reports a value somewhere in the tree (each node's local leaves
first, then its children in order). -/
def leavesRec (d : Dict) : List Key :=
  keysOf (get_leaves d) ++ leavesFold d
termination_by (sizeOf d, 1)

/-- The recursive contributions of the `NestedMapping` children. -/
def leavesFold : Dict → List Key
  | [] => []
  | (_, .nm c) :: rest => leavesRec c ++ leavesFold rest
  | _ :: rest => leavesFold rest
termination_by d => (sizeOf d, 0)

end

mutual

/-- `NestedMapping.to_dict` (`nested.py`, lines 189-197): a fresh dictionary
receiving first the local leaves (`update(self.get_leaves())`), then one
entry per child holding the child's own `to_dict()`.  In a genuine Python
dictionary the leaf keys and the child keys are disjoint, so each child
assignment appends. -/
def to_dict (d : Dict) : Dict :=
  get_leaves d ++ to_dictFold d
termination_by (sizeOf d, 1)

/-- The `for item, child in self.get_children():` loop of `to_dict`. -/
def to_dictFold : Dict → Dict
  | [] => []
  | (k, .nm c) :: rest => (k, Val.pdict (to_dict c)) :: to_dictFold rest
  | _ :: rest => to_dictFold rest
termination_by d => (sizeOf d, 0)

end

/-- The state of a `NestedIterator` (`nested.py`, lines 17-38): the mapping
being iterated and `iter_stack`, a stack of per-node key iterators, each
modelled by its list of not-yet-consumed keys.  The head of the list is the
top of the stack (`iter_stack[-1]`). -/
structure NestedIter where
  mapping : Dict
  iter_stack : List (List Key)
deriving Repr

/-- The initial iterator state: `[iter(mapping.data)]`. -/
def initIter (d : Dict) : NestedIter := ⟨d, [keysOf d]⟩

/-- The outcome of one `__next__` call: a yielded key with the successor
state, a `StopIteration` propagating out of the call (carrying the shared
`iter_stack` as the exception leaves it, which the catching frame's
`pop(-1)` then operates on), or any other exception propagating out
(`KeyError` from the root lookup, `IndexError` from a pop on an empty
stack). -/
inductive IterStep : Type where
  | yielded : Key → NestedIter → IterStep
  | stop : List (List Key) → IterStep
  | raised : PyErr → IterStep
deriving Repr

/-- `NestedIterator.__next__` (`nested.py`, lines 25-38).  `fuel` bounds the
number of self-calls (`return self.__next__()`), which the Python code does
not bound syntactically; `none` means the fuel ran out.  The control flow is
subtle and modelled exactly:
* lines 26-27: an empty stack raises `StopIteration` *outside* the `try`, so
  the raising frame does not catch it;
* line 29: when the top iterator is exhausted, its `StopIteration` is caught
  by this frame's handler, which pops the (still present) top frame and
  recurses at line 38 — inside the `except` block, so nothing that this
  recursion raises is caught here;
* line 33: after pushing a branch iterator, the recursive call sits *inside*
  the `try`: a `StopIteration` escaping the entire remaining traversal is
  caught right here, and the handler then executes `iter_stack.pop(-1)` on
  the shared stack that the exception left behind — which is empty (the
  terminal raise of lines 26-27 happens only with an empty stack), so the
  pop raises `IndexError`.
Note the source looks each key up with `self.mapping[next_key]`, a full
`__getitem__` from the *root*, not a local read in the node whose iterator
produced the key. -/
def nextIter : Nat → NestedIter → Option IterStep
  | 0, _ => none
  | _ + 1, ⟨_, []⟩ => some (.stop [])
  | f + 1, ⟨m, [] :: rest⟩ => nextIter f ⟨m, rest⟩
  | f + 1, ⟨m, (k :: ks) :: rest⟩ =>
      match getitem m k with
      | .error e => some (.raised e)
      | .ok (.nm c) =>
          match nextIter f ⟨m, keysOf c :: ks :: rest⟩ with
          | none => none
          | some (.stop st) =>
              match st with
              | [] => some (.raised .indexError)
              | _ :: st2 => nextIter f ⟨m, st2⟩
          | some r => some r
      | .ok _ => some (.yielded k ⟨m, ks :: rest⟩)

/-- Drive the iterator with repeated `__next__` calls, recording the keys it
yields and how the iteration ends: `.ok ()` for a clean `StopIteration`,
`.error e` for any other exception ending the loop.  `fo` bounds the number
of `__next__` calls, `fi` the internal recursion of each call; `none` means
a fuel ran out. -/
def runTrace : Nat → Nat → NestedIter → Option (List Key × Except PyErr Unit)
  | 0, _, _ => none
  | fo + 1, fi, st =>
      match nextIter fi st with
      | none => none
      | some (.raised e) => some ([], .error e)
      | some (.stop _) => some ([], .ok ())
      | some (.yielded k st2) =>
          match runTrace fo fi st2 with
          | none => none
          | some (l, r) => some (k :: l, r)

/-- A complete `for key in iterator:` loop as the validation pass of
`__init__` runs it: the collected keys when the loop ends by
`StopIteration`, or the exception that aborted it (discarding the partial
iteration). -/
def runIter (fo fi : Nat) (st : NestedIter) :
    Option (Except PyErr (List Key)) :=
  match runTrace fo fi st with
  | none => none
  | some (ks, .ok ()) => some (.ok ks)
  | some (_, .error e) => some (.error e)

/-- The body of the validation loop in `NestedMapping.__init__` (`nested.py`,
lines 87-93), applied to the list of keys the iterator yielded: `self[key]`
is evaluated for each; a `MultipleKeyError` is re-raised (wrapped in an
"Invalid structure at instantiation" message, which we do not model) and any
other exception propagates unchanged. -/
def checkKeys (d : Dict) : List Key → Except PyErr Unit
  | [] => .ok ()
  | k :: ks =>
      match getitem d k with
      | .error (.multipleKeyError _) => .error (.multipleKeyError k)
      | .error e => .error e
      | .ok _ => checkKeys d ks

/-- `NestedMapping.__init__` (`nested.py`, lines 69-93) on an already-loaded
dictionary: optionally wrap sub-dictionaries recursively, then, when `check`
is set, iterate all leaf keys and read each one back.  The fuels drive the
iterator; `none` means they ran out. -/
def initNM (fo fi : Nat) (d : Dict) (recursive check : Bool) :
    Option (Except PyErr Dict) :=
  let d' := if recursive then wrapRec d else d
  if check then
    match runIter fo fi (initIter d') with
    | none => none
    | some (.error e) => some (.error e)
    | some (.ok ks) =>
        match checkKeys d' ks with
        | .error e => some (.error e)
        | .ok _ => some (.ok d')
  else some (.ok d')

mutual

/-- A fuel bound for processing one stored value during iteration. -/
def valFuel : Val → Nat
  | .nm c => 1 + entFuel c
  | _ => 0
termination_by v => sizeOf v

/-- A fuel bound for processing a list of entries during iteration. -/
def entFuel : Dict → Nat
  | [] => 0
  | (_, v) :: rest => 1 + valFuel v + entFuel rest
termination_by d => sizeOf d

end

/-- Total fuel of a stack of entry lists. -/
def shadowFuel (sh : List Dict) : Nat := (sh.map entFuel).sum

/-- The three ways one `__next__` call can end, on the shadow stack: a
yielded key with the successor stack, a clean `StopIteration` escaping the
call, or the `IndexError` crash of a frame that pushed a branch and then
caught the terminal `StopIteration`. -/
inductive ShadowStep : Type where
  | yielded : Key → List Dict → ShadowStep
  | stop : ShadowStep
  | crashed : ShadowStep
deriving Repr

/-- The iterator's transition, expressed on a shadow stack that keeps the
remaining *entries* of each open node (the real iterator keeps only the
keys and re-reads each value through the root): skip exhausted frames (the
line-38 recursion, whose exceptions are not re-caught), open a branch by
pushing its entries and recursing inside the `try` (line 33) — so a
`StopIteration` escaping the rest of the traversal is caught by the pushing
frame and the pop on the by-then-empty stack raises `IndexError` — and
yield the key of a non-branch entry. -/
def stepShadow : List Dict → ShadowStep
  | [] => .stop
  | [] :: rest => stepShadow rest
  | ((_, .nm c) :: es) :: rest =>
      match stepShadow (c :: es :: rest) with
      | .stop => .crashed
      | r => r
  | ((k, _) :: es) :: rest => .yielded k (es :: rest)
termination_by sh => shadowFuel sh + sh.length
decreasing_by
  · simp [shadowFuel]
    omega
  · simp [shadowFuel, entFuel, valFuel]
    omega

/-- Whether the depth-first consumption order of a tree's entries ends with
a non-branch entry: look at the node's last entry, descending into the
children when it is a non-empty branch.  An empty tree counts as clean
(nothing is consumed at all).  When this is `false`, some branch is
consumed after the final leaf, and the `__next__` call that drains the
stack crashes with `IndexError` instead of signalling end-of-sequence. -/
def endsClean : Dict → Bool
  | [] => true
  | [(_, Val.nm [])] => false
  | [(_, Val.nm (e :: c))] => endsClean (e :: c)
  | [(_, _)] => true
  | _ :: e :: rest => endsClean (e :: rest)
termination_by d => sizeOf d

/-- Every frame of the shadow stack is exhausted. -/
def allNil : List Dict → Bool
  | [] => true
  | [] :: rest => allNil rest
  | _ => false

/-- Whether draining the shadow stack ends with a non-branch entry: the
bottom-most (last-listed, consumed last) non-exhausted frame decides, by
`endsClean`; an all-empty stack is clean. -/
def stackClean : List Dict → Bool
  | [] => true
  | f :: rest => if allNil rest then endsClean f else stackClean rest

/-- Read one shadow-machine outcome back as the `IterStep` the real
`__next__` produces for it: a yield carries the key-level stack, a clean
stop carries the (always empty) stack the terminal raise leaves, and a crash
is the `IndexError` from the handler's pop on that empty stack. -/
def encodeStep (t : Dict) : ShadowStep → IterStep
  | .yielded k sh => .yielded k ⟨t, sh.map keysOf⟩
  | .stop => .stop []
  | .crashed => .raised .indexError

/-- A shadow frame is genuine: it is a suffix of the entries of some node of
the tree being iterated. -/
def GoodSuffix (t : Dict) (es : Dict) : Prop :=
  ∃ n, SubNode t n ∧ List.IsSuffix es n

/-- Every key of the first dictionary occurs in the second. -/
def keysSubset (b a : Dict) : Bool := b.all (fun e => hasKey a e.1)

mutual

/-- Python `==` on the values our model stores, restricted to plain data:
scalars compare by value, plain dictionaries compare as unordered key-value
maps.  (The development only ever compares plain hierarchical values, as
produced by `to_dict`; mixed comparisons are irrelevant here and return
`false`.) -/
def valPyEq : Val → Val → Bool
  | .prim a, .prim b => a == b
  | .pdict a, .pdict b => dictSubEq a b && keysSubset b a
  | _, _ => false
termination_by v _ => sizeOf v

/-- Every entry of the first dictionary is present in the second with an
`==`-equal value. -/
def dictSubEq : Dict → Dict → Bool
  | [], _ => true
  | (k, v) :: rest, b =>
      (match lookupD b k with
       | some w => valPyEq v w
       | none => false) && dictSubEq rest b
termination_by d _ => sizeOf d

end

/-- Python `==` on two plain dictionaries: same keys, `==`-equal values. -/
def dictPyEq (a b : Dict) : Bool := dictSubEq a b && keysSubset b a

mutual

/-- A value is plain hierarchical data: an opaque scalar or a plain `dict`
of plain values (no `NestedMapping` anywhere), as a document loader
produces. -/
def plainVal : Val → Bool
  | .prim _ => true
  | .pdict c => plainDict c
  | .nm _ => false
termination_by v => sizeOf v

/-- A dictionary all of whose values are plain hierarchical data. -/
def plainDict : Dict → Bool
  | [] => true
  | (_, v) :: rest => plainVal v && plainDict rest
termination_by d => sizeOf d

end

mutual

/-- Every key of a plain hierarchical value, descending through plain
sub-dictionaries: the "no duplicate keys anywhere" reading for construction
input. -/
def plainKeys : Dict → List Key
  | [] => []
  | (k, v) :: rest => k :: (plainValKeys v ++ plainKeys rest)
termination_by d => sizeOf d

/-- Keys contributed by one plain value. -/
def plainValKeys : Val → List Key
  | .pdict c => plainKeys c
  | _ => []
termination_by v => sizeOf v

end

/-- The duplicated-key example `{"a": 1, "sub": {"a": 2}}` after recursive
wrapping: the key `"a"` occurs in the entries of two different nodes. -/
def dupTree : Dict :=
  [("a", Val.prim 1), ("sub", Val.nm [("a", Val.prim 2)])]

/-- The same duplicated-key input before wrapping, as a document loader
produces it. -/
def dupTreeRaw : Dict :=
  [("a", Val.prim 1), ("sub", Val.pdict [("a", Val.prim 2)])]

/-- A duplicate-free two-level example `{"a": 1, "sub": {"b": 2}}`. -/
def dupFreeTree : Dict :=
  [("a", Val.prim 1), ("sub", Val.nm [("b", Val.prim 2)])]

/-- A plain hierarchical input `{"a": 1, "sub": {"b": 2}}`. -/
def plainTreeEx : Dict :=
  [("a", Val.prim 1), ("sub", Val.pdict [("b", Val.prim 2)])]

/-! ### Basic facts about the dictionary operations -/

theorem sizeOf_snd_lt_of_mem {d : Dict} {e : Key × Val} (h : e ∈ d) :
    sizeOf e.2 < sizeOf d := by
  induction d with
  | nil => exact absurd h (List.not_mem_nil e)
  | cons hd tl ih =>
      rcases List.mem_cons.mp h with rfl | h'
      · cases e with | mk k v => simp; omega
      · have := ih h'; simp; omega

/-- Strong induction on the size of a dictionary, the induction scheme for
all traversals that descend both into list tails and into nested
`NestedMapping` values. -/
theorem dictSizeInd (P : Dict → Prop)
    (step : ∀ d : Dict, (∀ c : Dict, sizeOf c < sizeOf d → P c) → P d)
    (d : Dict) : P d := by
  have H : ∀ n : Nat, ∀ d : Dict, sizeOf d ≤ n → P d := by
    intro n
    induction n with
    | zero =>
        intro d hd
        exact step d (fun c hc => absurd (Nat.lt_of_lt_of_le hc hd) (by omega))
    | succ n ih =>
        intro d hd
        refine step d (fun c hc => ih c ?_)
        omega
  exact H (sizeOf d) d le_rfl

theorem sizeOf_tail_lt (e : Key × Val) (rest : Dict) :
    sizeOf rest < sizeOf (e :: rest) := by
  simp only [List.cons.sizeOf_spec]
  omega

theorem sizeOf_nm_lt (k0 : Key) (c rest : Dict) :
    sizeOf c < sizeOf ((k0, Val.nm c) :: rest) := by
  simp only [List.cons.sizeOf_spec, Prod.mk.sizeOf_spec, Val.nm.sizeOf_spec]
  omega

theorem sizeOf_pdict_lt (k0 : Key) (c rest : Dict) :
    sizeOf c < sizeOf ((k0, Val.pdict c) :: rest) := by
  simp only [List.cons.sizeOf_spec, Prod.mk.sizeOf_spec, Val.pdict.sizeOf_spec]
  omega

theorem lookupD_mem {d : Dict} {k : Key} {v : Val} (h : lookupD d k = some v) :
    (k, v) ∈ d := by
  induction d with
  | nil => simp [lookupD] at h
  | cons hd tl ih =>
      cases hd with
      | mk k0 v0 =>
          by_cases hk : k0 = k
          · subst hk
            simp [lookupD] at h
            simp [h]
          · simp [lookupD, hk] at h
            exact List.mem_cons_of_mem _ (ih h)

theorem hasKey_iff_mem {d : Dict} {k : Key} :
    hasKey d k = true ↔ k ∈ keysOf d := by
  induction d with
  | nil => simp [hasKey, lookupD, keysOf]
  | cons hd tl ih =>
      cases hd with
      | mk k0 v0 =>
          by_cases hk : k0 = k
          · subst hk
            simp [hasKey, lookupD, keysOf]
          · simp only [hasKey, lookupD, hk, if_false, keysOf, List.map_cons,
              List.mem_cons]
            rw [← keysOf, ← hasKey]
            simp [ih, Ne.symm hk]

theorem hasKey_false_iff {d : Dict} {k : Key} :
    hasKey d k = false ↔ k ∉ keysOf d := by
  rw [← Bool.not_eq_true, not_iff_not]
  exact hasKey_iff_mem

theorem mem_lookupD {d : Dict} {k : Key} {v : Val}
    (hnd : (keysOf d).Nodup) (h : (k, v) ∈ d) : lookupD d k = some v := by
  induction d with
  | nil => exact absurd h (List.not_mem_nil _)
  | cons hd tl ih =>
      cases hd with
      | mk k0 v0 =>
          simp only [keysOf, List.map_cons, List.nodup_cons] at hnd
          rcases List.mem_cons.mp h with he | h'
          · cases he
            simp [lookupD]
          · have hk : k0 ≠ k := by
              intro he
              subst he
              exact hnd.1 (by simpa [keysOf] using List.mem_map_of_mem Prod.fst h')
            simp [lookupD, hk]
            exact ih hnd.2 h'

theorem lookupD_append {a b : Dict} {k : Key} :
    lookupD (a ++ b) k =
      match lookupD a k with
      | some v => some v
      | none => lookupD b k := by
  induction a with
  | nil => simp [lookupD]
  | cons hd tl ih =>
      cases hd with
      | mk k0 v0 =>
          by_cases hk : k0 = k <;> simp [lookupD, hk, ih]

theorem setK_eq_append {d : Dict} {k : Key} {v : Val}
    (h : hasKey d k = false) : setK d k v = d ++ [(k, v)] := by
  induction d with
  | nil => simp [setK]
  | cons hd tl ih =>
      cases hd with
      | mk k0 v0 =>
          by_cases hk : k0 = k
          · subst hk
            simp [hasKey, lookupD] at h
          · simp only [hasKey, lookupD, hk, if_false] at h
            simp [setK, hk, ih h]

/-! ### Keys visible to the tree traversal -/

theorem allKeys_append {a b : Dict} :
    allKeys (a ++ b) = allKeys a ++ allKeys b := by
  induction a with
  | nil => simp [allKeys]
  | cons hd tl ih =>
      cases hd with
      | mk k v => simp [allKeys, ih]

theorem keysOf_sublist_allKeys (d : Dict) : List.Sublist (keysOf d) (allKeys d) := by
  induction d with
  | nil => simp [keysOf, allKeys]
  | cons hd tl ih =>
      cases hd with
      | mk k v =>
          simp only [keysOf, List.map_cons, allKeys]
          exact (ih.trans (List.sublist_append_right _ _)).cons₂ k

theorem valKeys_sublist_of_mem {d : Dict} {e : Key × Val} (h : e ∈ d) :
    List.Sublist (valKeys e.2) (allKeys d) := by
  induction d with
  | nil => exact absurd h (List.not_mem_nil _)
  | cons hd tl ih =>
      cases hd with
      | mk k v =>
          rcases List.mem_cons.mp h with rfl | h'
          · simp only [allKeys]
            exact ((List.sublist_append_left _ _).trans
              (List.sublist_cons_self _ _))
          · simp only [allKeys]
            exact ((ih h').trans
              ((List.sublist_append_right _ _).trans (List.sublist_cons_self _ _)))

theorem mem_keysOf_mem_allKeys {d : Dict} {k : Key} (h : k ∈ keysOf d) :
    k ∈ allKeys d :=
  (keysOf_sublist_allKeys d).mem h

theorem SubNode.trans {a b c : Dict} (h1 : SubNode a b) (h2 : SubNode b c) :
    SubNode a c := by
  induction h1 with
  | refl => exact h2
  | step hm _ ih => exact SubNode.step hm (ih h2)

theorem SubNode.allKeys_sublist {d n : Dict} (h : SubNode d n) :
    List.Sublist (allKeys n) (allKeys d) := by
  induction h with
  | refl => exact List.Sublist.refl _
  | step hm _ ih =>
      have h2 := valKeys_sublist_of_mem hm
      simp only [valKeys] at h2
      exact ih.trans h2

/-! ### Characterisation of `find_data_` through the occurrence paths -/

theorem getLast?_append_match {α : Type} (a b : List α) :
    (a ++ b).getLast? =
      match b.getLast? with
      | some x => some x
      | none => a.getLast? := by
  cases b with
  | nil => simp
  | cons x xs =>
      rw [List.getLast?_append_of_ne_nil a (List.cons_ne_nil x xs)]
      cases h : (x :: xs).getLast? with
      | none =>
          rw [List.getLast?_eq_none_iff] at h
          exact absurd h (List.cons_ne_nil x xs)
      | some p => simp

theorem findFold_eq_occ (key : Key) (d : Dict) :
    ∀ acc, findFold key d acc =
      match (occFold key d).getLast? with
      | some p => some p
      | none => acc := by
  induction d using dictSizeInd with
  | step d ih =>
      intro acc
      match d with
      | [] => simp [findFold, occFold]
      | (k0, Val.prim x) :: rest =>
          simp only [findFold, occFold]
          exact ih rest (sizeOf_tail_lt _ _) acc
      | (k0, Val.pdict c) :: rest =>
          simp only [findFold, occFold]
          exact ih rest (sizeOf_tail_lt _ _) acc
      | (k0, Val.nm c) :: rest =>
          have hc := sizeOf_nm_lt k0 c rest
          have hrest := sizeOf_tail_lt (k0, Val.nm c) rest
          rw [findFold, occFold, ih rest hrest, find_data, ih c hc,
            getLast?_append_match]
          cases h1 : (occFold key rest).getLast? with
          | some q => simp
          | none =>
              rw [List.getLast?_map, occPaths, getLast?_append_match]
              cases h2 : (occFold key c).getLast? with
              | some p => simp
              | none => by_cases h3 : hasKey c key <;> simp [h3]

theorem find_data_eq_occ (d : Dict) (key : Key) :
    find_data d key =
      match (occPaths d key).getLast? with
      | some p => Except.ok p
      | none => Except.error (PyErr.keyError key) := by
  rw [find_data, findFold_eq_occ, occPaths, getLast?_append_match]
  cases ho : (occFold key d).getLast? with
  | some p => simp
  | none => by_cases h : hasKey d key <;> simp [h]

/-- `find_data_` can only raise a plain `KeyError` for the requested key: in
the source, the `raise MultipleKeyError(key)` is swallowed by the enclosing
`except KeyError: pass` because `MultipleKeyError` subclasses `KeyError`. -/
theorem find_data_error_eq {d : Dict} {key : Key} {e : PyErr}
    (h : find_data d key = .error e) : e = .keyError key := by
  rw [find_data_eq_occ] at h
  cases ho : (occPaths d key).getLast? with
  | some p => rw [ho] at h; simp at h
  | none => rw [ho] at h; simpa using h.symm

/-- `__getitem__` can only raise a plain `KeyError` for the requested key:
it never surfaces a `MultipleKeyError`, whatever the tree looks like. -/
theorem getitem_error_eq {d : Dict} {key : Key} {e : PyErr}
    (h : getitem d key = .error e) : e = .keyError key := by
  rw [getitem] at h
  cases hf : find_data d key with
  | error e2 =>
      rw [hf] at h
      simp at h
      subst h
      exact find_data_error_eq hf
  | ok p =>
      rw [hf] at h
      simp only at h
      cases hg : getData d p with
      | none =>
          rw [hg] at h
          simp at h
          exact h.symm
      | some owner =>
          rw [hg] at h
          simp only at h
          cases hl : lookupD owner key with
          | none =>
              rw [hl] at h
              simp at h
              exact h.symm
          | some v =>
              rw [hl] at h
              simp at h

/-- `__delitem__` can only raise a plain `KeyError` for the requested key. -/
theorem delitem_error_eq {d : Dict} {key : Key} {e : PyErr}
    (h : delitem d key = .error e) : e = .keyError key := by
  rw [delitem] at h
  cases hf : find_data d key with
  | error e2 =>
      rw [hf] at h
      simp at h
      subst h
      exact find_data_error_eq hf
  | ok p =>
      rw [hf] at h
      simp at h

theorem mem_allKeys_iff {key : Key} {d : Dict} :
    key ∈ allKeys d ↔ key ∈ keysOf d ∨ key ∈ valsKeys d := by
  induction d with
  | nil => simp [allKeys, keysOf, valsKeys]
  | cons hd tl ih =>
      cases hd with
      | mk k v =>
          simp only [allKeys, keysOf, valsKeys, List.map_cons, List.mem_cons,
            List.mem_append]
          rw [← keysOf]
          constructor
          · rintro (h | h | h)
            · exact Or.inl (Or.inl h)
            · exact Or.inr (Or.inl h)
            · rcases ih.mp h with h2 | h2
              · exact Or.inl (Or.inr h2)
              · exact Or.inr (Or.inr h2)
          · rintro ((h | h) | (h | h))
            · exact Or.inl h
            · exact Or.inr (Or.inr (ih.mpr (Or.inl h)))
            · exact Or.inr (Or.inl h)
            · exact Or.inr (Or.inr (ih.mpr (Or.inr h)))

theorem occ_ne_nil_aux (key : Key) (d : Dict) :
    (occFold key d ≠ [] ↔ key ∈ valsKeys d) ∧
      (occPaths d key ≠ [] ↔ key ∈ allKeys d) := by
  induction d using dictSizeInd with
  | step d ih =>
      have h1 : occFold key d ≠ [] ↔ key ∈ valsKeys d := by
        match d with
        | [] => simp [occFold, valsKeys]
        | (k0, Val.nm c) :: rest =>
            have ihc := (ih c (sizeOf_nm_lt k0 c rest)).2
            have ihr := (ih rest (sizeOf_tail_lt _ _)).1
            simp only [occFold, valsKeys, valKeys]
            rw [List.mem_append, ← ihc, ← ihr]
            simp only [ne_eq, List.append_eq_nil, List.map_eq_nil_iff]
            tauto
        | (k0, Val.prim x) :: rest =>
            have ihr := (ih rest (sizeOf_tail_lt _ _)).1
            simp only [occFold, valsKeys, valKeys]
            simpa using ihr
        | (k0, Val.pdict c) :: rest =>
            have ihr := (ih rest (sizeOf_tail_lt _ _)).1
            simp only [occFold, valsKeys, valKeys]
            simpa using ihr
      refine ⟨h1, ?_⟩
      rw [occPaths]
      by_cases hk : hasKey d key
      · simp only [hk, if_true]
        constructor
        · intro _
          exact mem_keysOf_mem_allKeys (hasKey_iff_mem.mp hk)
        · intro _
          simp
      · simp only [hk, if_false, List.nil_append]
        have hk2 : key ∉ keysOf d := hasKey_false_iff.mp (by simpa using hk)
        constructor
        · intro h2
          exact mem_allKeys_iff.mpr (Or.inr (h1.mp h2))
        · intro hm
          rcases mem_allKeys_iff.mp hm with h2 | h2
          · exact absurd h2 hk2
          · exact h1.mpr h2

theorem occPaths_eq_nil_iff {key : Key} {d : Dict} :
    occPaths d key = [] ↔ key ∉ allKeys d := by
  have h := (occ_ne_nil_aux key d).2
  constructor
  · intro h2 hm
    exact (h.mpr hm) h2
  · intro h2
    by_contra h3
    exact h2 (h.mp h3)

theorem occFold_eq_nil_iff {key : Key} {d : Dict} :
    occFold key d = [] ↔ key ∉ valsKeys d := by
  have h := (occ_ne_nil_aux key d).1
  constructor
  · intro h2 hm
    exact (h.mpr hm) h2
  · intro h2
    by_contra h3
    exact h2 (h.mp h3)

/-! ### Uniqueness: trees without duplicated keys -/

theorem count_allKeys_split (key : Key) (d : Dict) :
    (allKeys d).count key = (keysOf d).count key + (valsKeys d).count key := by
  induction d with
  | nil => simp [allKeys, keysOf, valsKeys]
  | cons hd tl ih =>
      cases hd with
      | mk k v =>
          simp only [keysOf] at ih ⊢
          simp only [allKeys, valsKeys, List.map_cons, List.count_cons,
            List.count_append, beq_iff_eq]
          by_cases hk : key = k
          · subst hk
            simp only [if_pos rfl, ih]
            omega
          · simp only [if_neg hk, ih]
            omega

theorem occ_counts (key : Key) (d : Dict) :
    (occPaths d key).length ≤ (allKeys d).count key ∧
      (occFold key d).length ≤ (valsKeys d).count key := by
  induction d using dictSizeInd with
  | step d ih =>
      have h2 : (occFold key d).length ≤ (valsKeys d).count key := by
        match d with
        | [] => simp [occFold, valsKeys]
        | (k0, Val.nm c) :: rest =>
            have ihc := (ih c (sizeOf_nm_lt k0 c rest)).1
            have ihr := (ih rest (sizeOf_tail_lt _ _)).2
            simp only [occFold, valsKeys, valKeys, List.length_append,
              List.length_map, List.count_append]
            omega
        | (k0, Val.prim x) :: rest =>
            have ihr := (ih rest (sizeOf_tail_lt _ _)).2
            simp only [occFold, valsKeys, valKeys, List.nil_append]
            exact ihr
        | (k0, Val.pdict c) :: rest =>
            have ihr := (ih rest (sizeOf_tail_lt _ _)).2
            simp only [occFold, valsKeys, valKeys, List.nil_append]
            exact ihr
      refine ⟨?_, h2⟩
      rw [occPaths, count_allKeys_split key d, List.length_append]
      by_cases hk : hasKey d key
      · have h3 : 1 ≤ (keysOf d).count key :=
          List.one_le_count_iff.mpr (hasKey_iff_mem.mp hk)
        simp [hk]
        omega
      · simp at hk
        simp [hk]
        omega

theorem eq_singleton_of_mem_of_len {α : Type} {l : List α} {p : α}
    (hm : p ∈ l) (hl : l.length ≤ 1) : l = [p] := by
  match l with
  | [] => cases hm
  | [x] =>
      simp at hm
      simp [hm]
  | x :: y :: xs => simp at hl

theorem keysOf_nodup_of_allKeys {d : Dict} (h : (allKeys d).Nodup) :
    (keysOf d).Nodup :=
  (keysOf_sublist_allKeys d).nodup h

theorem allKeys_nodup_of_mem_nm {d c : Dict} {k0 : Key}
    (hnd : (allKeys d).Nodup) (hm : (k0, Val.nm c) ∈ d) :
    (allKeys c).Nodup := by
  have hsl := valKeys_sublist_of_mem hm
  simp only [valKeys] at hsl
  exact hsl.nodup hnd

theorem cons_mem_occFold {d : Dict} {k0 : Key} {c : Dict} {key : Key}
    {p : List Key} (hm : (k0, Val.nm c) ∈ d) (hp : p ∈ occPaths c key) :
    (k0 :: p) ∈ occFold key d := by
  induction d with
  | nil => cases hm
  | cons hd tl ih =>
      rcases List.mem_cons.mp hm with he | h'
      · subst he
        simp only [occFold]
        exact List.mem_append.mpr (Or.inl (List.mem_map_of_mem _ hp))
      · cases hd with
        | mk k1 v1 =>
            cases v1 with
            | nm c1 =>
                simp only [occFold]
                exact List.mem_append.mpr (Or.inr (ih h'))
            | prim x =>
                simp only [occFold]
                exact ih h'
            | pdict c1 =>
                simp only [occFold]
                exact ih h'

theorem getData_cons_of_mem {d : Dict} {k0 : Key} {c : Dict} {p : List Key}
    (hnd : (keysOf d).Nodup) (hm : (k0, Val.nm c) ∈ d) :
    getData d (k0 :: p) = getData c p := by
  have hl : lookupD d k0 = some (Val.nm c) := mem_lookupD hnd hm
  simp [getData, hl]

theorem occPaths_of_subnode {d n : Dict} {key : Key} (hsub : SubNode d n) :
    (allKeys d).Nodup → key ∈ keysOf n →
      ∃ p, p ∈ occPaths d key ∧ getData d p = some n := by
  induction hsub with
  | refl d0 =>
      intro _ hk
      refine ⟨[], ?_, rfl⟩
      rw [occPaths]
      have h2 : hasKey d0 key := hasKey_iff_mem.mpr hk
      simp [h2]
  | @step d0 k1 c1 n1 hm _ ih =>
      intro hnd hk
      obtain ⟨p, hp, hpd⟩ := ih (allKeys_nodup_of_mem_nm hnd hm) hk
      refine ⟨k1 :: p, ?_, ?_⟩
      · rw [occPaths]
        exact List.mem_append.mpr (Or.inr (cons_mem_occFold hm hp))
      · rw [getData_cons_of_mem (keysOf_nodup_of_allKeys hnd) hm]
        exact hpd

theorem find_data_unique {d n : Dict} {key : Key}
    (hnd : (allKeys d).Nodup) (hsub : SubNode d n) (hk : key ∈ keysOf n) :
    ∃ p, find_data d key = .ok p ∧ getData d p = some n := by
  obtain ⟨p, hp, hpd⟩ := occPaths_of_subnode hsub hnd hk
  have hcount : (allKeys d).count key ≤ 1 :=
    List.nodup_iff_count_le_one.mp hnd key
  have hlen := (occ_counts key d).1
  have hsing : occPaths d key = [p] :=
    eq_singleton_of_mem_of_len hp (by omega)
  refine ⟨p, ?_, hpd⟩
  rw [find_data_eq_occ, hsing]
  simp

theorem mem_keysOf_of_lookupD {n : Dict} {key : Key} {v : Val}
    (h : lookupD n key = some v) : key ∈ keysOf n := by
  have h2 := lookupD_mem h
  have h3 := List.mem_map_of_mem Prod.fst h2
  simpa [keysOf] using h3

/-- In a tree with globally unique keys, reading a key that some node of the
tree holds returns that node's value for it. -/
theorem getitem_unique {d n : Dict} {key : Key} {v : Val}
    (hnd : (allKeys d).Nodup) (hsub : SubNode d n)
    (hv : lookupD n key = some v) : getitem d key = .ok v := by
  obtain ⟨p, hf, hpd⟩ :=
    find_data_unique hnd hsub (mem_keysOf_of_lookupD hv)
  rw [getitem, hf]
  simp only
  rw [hpd]
  simp only
  rw [hv]

/-! ### The size computation -/

theorem get_leaves_cons_nm (k : Key) (c : Dict) (rest : Dict) :
    get_leaves ((k, Val.nm c) :: rest) = get_leaves rest := by
  simp [get_leaves]

theorem get_leaves_cons_prim (k : Key) (x : Nat) (rest : Dict) :
    get_leaves ((k, Val.prim x) :: rest) = (k, Val.prim x) :: get_leaves rest := by
  simp [get_leaves]

theorem get_leaves_cons_pdict (k : Key) (c : Dict) (rest : Dict) :
    get_leaves ((k, Val.pdict c) :: rest) =
      (k, Val.pdict c) :: get_leaves rest := by
  simp [get_leaves]

theorem get_children_cons_nm (k : Key) (c : Dict) (rest : Dict) :
    get_children ((k, Val.nm c) :: rest) = (k, c) :: get_children rest := by
  simp [get_children]

theorem get_children_cons_prim (k : Key) (x : Nat) (rest : Dict) :
    get_children ((k, Val.prim x) :: rest) = get_children rest := by
  simp [get_children]

theorem get_children_cons_pdict (k : Key) (c : Dict) (rest : Dict) :
    get_children ((k, Val.pdict c) :: rest) = get_children rest := by
  simp [get_children]

theorem length_partition (d : Dict) :
    d.length = (get_leaves d).length + (get_children d).length := by
  induction d with
  | nil => simp [get_leaves, get_children]
  | cons hd tl ih =>
      cases hd with
      | mk k v =>
          cases v with
          | prim x =>
              rw [get_leaves_cons_prim, get_children_cons_prim]
              simp only [List.length_cons]
              omega
          | pdict c =>
              rw [get_leaves_cons_pdict, get_children_cons_pdict]
              simp only [List.length_cons]
              omega
          | nm c =>
              rw [get_leaves_cons_nm, get_children_cons_nm]
              simp only [List.length_cons]
              omega

theorem sizeSum_children (d : Dict) :
    sizeSum d = ((get_children d).map (fun e => nmSize e.2)).sum := by
  induction d with
  | nil => simp [sizeSum, get_children]
  | cons hd tl ih =>
      cases hd with
      | mk k v =>
          cases v with
          | prim x =>
              rw [get_children_cons_prim]
              simp only [sizeSum]
              exact ih
          | pdict c =>
              rw [get_children_cons_pdict]
              simp only [sizeSum]
              exact ih
          | nm c =>
              rw [get_children_cons_nm]
              simp only [sizeSum, List.map_cons, List.sum_cons]
              rw [ih]

theorem sizeSum_of_no_children {d : Dict} (h : (get_children d).length = 0) :
    sizeSum d = 0 := by
  rw [sizeSum_children, List.length_eq_zero.mp h]
  simp

theorem nmSize_formula (d : Dict) :
    nmSize d = (get_leaves d).length + sizeSum d := by
  rw [nmSize]
  by_cases h : (get_children d).length = 0
  · rw [if_pos h, sizeSum_of_no_children h, length_partition d, h]
  · rw [if_neg h, length_partition d]
    have hle : (get_children d).length ≤
        (get_leaves d).length + (get_children d).length := by omega
    omega

theorem leafKeys_append (a b : Dict) :
    leafKeys (a ++ b) = leafKeys a ++ leafKeys b := by
  induction a with
  | nil => simp [leafKeys]
  | cons hd tl ih =>
      cases hd with
      | mk k v =>
          cases v with
          | prim x => simp only [List.cons_append, leafKeys, ih, List.nil_append]
          | pdict c => simp only [List.cons_append, leafKeys, ih, List.nil_append]
          | nm c =>
              simp only [List.cons_append, leafKeys, ih, List.append_assoc]

theorem nmSize_eq_leafKeys (d : Dict) : nmSize d = (leafKeys d).length := by
  induction d using dictSizeInd with
  | step d ih =>
      rw [nmSize_formula]
      match d with
      | [] => simp [get_leaves, sizeSum, leafKeys]
      | (k, Val.nm c) :: rest =>
          have ihc := ih c (sizeOf_nm_lt k c rest)
          have ihr := ih rest (sizeOf_tail_lt _ _)
          have hr := nmSize_formula rest
          rw [get_leaves_cons_nm]
          simp only [sizeSum, leafKeys, List.length_append]
          omega
      | (k, Val.prim x) :: rest =>
          have ihr := ih rest (sizeOf_tail_lt _ _)
          have hr := nmSize_formula rest
          rw [get_leaves_cons_prim]
          simp only [sizeSum, leafKeys, List.length_cons]
          omega
      | (k, Val.pdict c) :: rest =>
          have ihr := ih rest (sizeOf_tail_lt _ _)
          have hr := nmSize_formula rest
          rw [get_leaves_cons_pdict]
          simp only [sizeSum, leafKeys, List.length_cons]
          omega

/-! ### The depth-first iterator -/

theorem shadowFuel_cons (es : Dict) (rest : List Dict) :
    shadowFuel (es :: rest) = entFuel es + shadowFuel rest := by
  simp [shadowFuel]

theorem entFuel_cons (k : Key) (v : Val) (es : Dict) :
    entFuel ((k, v) :: es) = 1 + valFuel v + entFuel es := by
  simp [entFuel]

theorem stepShadow_spec (sh : List Dict) :
    (stepShadow sh = .stop → (sh.map leafKeys).flatten = []) ∧
      (stepShadow sh = .crashed → (sh.map leafKeys).flatten = []) ∧
      (∀ k sh', stepShadow sh = .yielded k sh' →
        (sh.map leafKeys).flatten = k :: (sh'.map leafKeys).flatten ∧
          shadowFuel sh' + sh'.length < shadowFuel sh + sh.length) := by
  induction sh using stepShadow.induct with
  | case1 =>
      refine ⟨fun _ => by simp, ?_, ?_⟩
      · intro h
        rw [stepShadow] at h
        cases h
      · intro k sh' h
        rw [stepShadow] at h
        cases h
  | case2 rest ih =>
      have hstep : stepShadow ([] :: rest) = stepShadow rest := by
        rw [stepShadow]
      have hflat : ((([] : Dict) :: rest).map leafKeys).flatten =
          (rest.map leafKeys).flatten := by
        simp only [List.map_cons, List.flatten_cons, leafKeys,
          List.nil_append]
      refine ⟨?_, ?_, ?_⟩
      · intro h
        rw [hstep] at h
        rw [hflat]
        exact ih.1 h
      · intro h
        rw [hstep] at h
        rw [hflat]
        exact ih.2.1 h
      · intro k sh' h
        rw [hstep] at h
        have h2 := ih.2.2 k sh' h
        refine ⟨by rw [hflat]; exact h2.1, ?_⟩
        have h3 := h2.2
        rw [shadowFuel_cons]
        simp only [entFuel, List.length_cons]
        omega
  | case3 k0 c es rest hs ih =>
      have hstep : stepShadow (((k0, Val.nm c) :: es) :: rest) =
          ShadowStep.crashed := by
        rw [stepShadow, hs]
      have hflat : ((((k0, Val.nm c) :: es) :: rest).map leafKeys).flatten =
          ((c :: es :: rest).map leafKeys).flatten := by
        simp only [List.map_cons, List.flatten_cons, leafKeys,
          List.append_assoc]
      refine ⟨?_, ?_, ?_⟩
      · intro h
        rw [hstep] at h
        cases h
      · intro h
        rw [hflat]
        exact ih.1 hs
      · intro k sh' h
        rw [hstep] at h
        cases h
  | case4 k0 c es rest hns ih =>
      have hstep : stepShadow (((k0, Val.nm c) :: es) :: rest) =
          stepShadow (c :: es :: rest) := by
        rw [stepShadow]
        cases hs : stepShadow (c :: es :: rest) with
        | stop => exact (hns hs).elim
        | crashed => rfl
        | yielded k2 sh2 => rfl
      have hflat : ((((k0, Val.nm c) :: es) :: rest).map leafKeys).flatten =
          ((c :: es :: rest).map leafKeys).flatten := by
        simp only [List.map_cons, List.flatten_cons, leafKeys,
          List.append_assoc]
      refine ⟨?_, ?_, ?_⟩
      · intro h
        rw [hstep] at h
        exact (hns h).elim
      · intro h
        rw [hstep] at h
        rw [hflat]
        exact ih.2.1 h
      · intro k sh' h
        rw [hstep] at h
        have h2 := ih.2.2 k sh' h
        refine ⟨by rw [hflat]; exact h2.1, ?_⟩
        have h3 := h2.2
        simp only [shadowFuel_cons, entFuel_cons, valFuel,
          List.length_cons] at h3 ⊢
        omega
  | case5 k0 v es rest hnotnm =>
      have hstep : stepShadow (((k0, v) :: es) :: rest) =
          .yielded k0 (es :: rest) := by
        rw [stepShadow]
        exact hnotnm
      refine ⟨?_, ?_, ?_⟩
      · intro h
        rw [hstep] at h
        cases h
      · intro h
        rw [hstep] at h
        cases h
      · intro k sh' h
        rw [hstep] at h
        simp only [ShadowStep.yielded.injEq] at h
        obtain ⟨rfl, rfl⟩ := h
        have hleaf : leafKeys ((k0, v) :: es) = k0 :: leafKeys es := by
          cases v with
          | nm c => exact (hnotnm c rfl).elim
          | prim x => simp [leafKeys]
          | pdict c => simp [leafKeys]
        constructor
        · simp only [List.map_cons, List.flatten_cons, hleaf,
            List.cons_append]
        · simp only [shadowFuel_cons, entFuel_cons, List.length_cons]
          omega

theorem allNil_nil_cons (rest : List Dict) :
    allNil ([] :: rest) = allNil rest := rfl

theorem allNil_cons_cons (e : Key × Val) (f : Dict) (rest : List Dict) :
    allNil ((e :: f) :: rest) = false := rfl

theorem stackClean_cons (f : Dict) (rest : List Dict) :
    stackClean (f :: rest) =
      if allNil rest then endsClean f else stackClean rest := rfl

theorem endsClean_nil : endsClean ([] : Dict) = true := by
  rw [endsClean]

theorem endsClean_cons_cons (a e : Key × Val) (rest : Dict) :
    endsClean (a :: e :: rest) = endsClean (e :: rest) := by
  rw [endsClean]

theorem endsClean_single_nm_nil (k : Key) :
    endsClean [(k, Val.nm [])] = false := by
  rw [endsClean]

theorem endsClean_single_nm_cons (k : Key) (e : Key × Val) (c : Dict) :
    endsClean [(k, Val.nm (e :: c))] = endsClean (e :: c) := by
  rw [endsClean]

theorem endsClean_single_leaf (k : Key) (v : Val)
    (hnotnm : ∀ c, v = Val.nm c → False) : endsClean [(k, v)] = true := by
  cases v with
  | nm c => exact (hnotnm c rfl).elim
  | prim x => simp [endsClean]
  | pdict c => simp [endsClean]

theorem allNil_stackClean (sh : List Dict) :
    allNil sh = true → stackClean sh = true := by
  induction sh with
  | nil => intro _; rfl
  | cons f rest ih =>
      intro h
      cases f with
      | nil =>
          rw [allNil_nil_cons] at h
          rw [stackClean_cons, h]
          simp [endsClean_nil]
      | cons e f2 =>
          rw [allNil_cons_cons] at h
          cases h

theorem stackClean_cons_nil (rest : List Dict) :
    stackClean ([] :: rest) = stackClean rest := by
  rw [stackClean_cons]
  cases hr : allNil rest with
  | true =>
      rw [if_pos rfl, allNil_stackClean rest hr, endsClean_nil]
  | false =>
      rw [if_neg (by simp)]

theorem allNil_stepShadow (sh : List Dict) :
    allNil sh = true → stepShadow sh = .stop := by
  induction sh with
  | nil =>
      intro _
      rw [stepShadow]
  | cons f rest ih =>
      intro h
      cases f with
      | nil =>
          rw [allNil_nil_cons] at h
          rw [stepShadow]
          exact ih h
      | cons e f2 =>
          rw [allNil_cons_cons] at h
          cases h

theorem stepShadow_stop_allNil (sh : List Dict) :
    stepShadow sh = .stop → allNil sh = true := by
  induction sh using stepShadow.induct with
  | case1 => intro _; rfl
  | case2 rest ih =>
      intro h
      rw [stepShadow] at h
      rw [allNil_nil_cons]
      exact ih h
  | case3 k0 c es rest hs ih =>
      intro h
      have hstep : stepShadow (((k0, Val.nm c) :: es) :: rest) =
          ShadowStep.crashed := by
        rw [stepShadow, hs]
      rw [hstep] at h
      cases h
  | case4 k0 c es rest hns ih =>
      intro h
      have hstep : stepShadow (((k0, Val.nm c) :: es) :: rest) =
          stepShadow (c :: es :: rest) := by
        rw [stepShadow]
        cases hs : stepShadow (c :: es :: rest) with
        | stop => exact (hns hs).elim
        | crashed => rfl
        | yielded k2 sh2 => rfl
      rw [hstep] at h
      exact (hns h).elim
  | case5 k0 v es rest hnotnm =>
      intro h
      have hstep : stepShadow (((k0, v) :: es) :: rest) =
          .yielded k0 (es :: rest) := by
        rw [stepShadow]
        exact hnotnm
      rw [hstep] at h
      cases h

theorem stackClean_push (k : Key) (c es : Dict) (rest : List Dict)
    (h : allNil (c :: es :: rest) = false) :
    stackClean (((k, Val.nm c) :: es) :: rest) =
      stackClean (c :: es :: rest) := by
  cases hr : allNil rest with
  | true =>
      cases es with
      | nil =>
          cases c with
          | nil =>
              rw [allNil_nil_cons, allNil_nil_cons, hr] at h
              cases h
          | cons e c2 =>
              simp [stackClean_cons, allNil_nil_cons, hr,
                endsClean_single_nm_cons]
      | cons e2 es2 =>
          simp [stackClean_cons, allNil_cons_cons, hr, endsClean_cons_cons]
  | false =>
      cases es with
      | nil =>
          simp [stackClean_cons, allNil_nil_cons, hr]
      | cons e2 es2 =>
          simp [stackClean_cons, allNil_cons_cons, hr]

theorem stackClean_leaf (k : Key) (v : Val) (es : Dict) (rest : List Dict)
    (hnotnm : ∀ c, v = Val.nm c → False) :
    stackClean (((k, v) :: es) :: rest) = stackClean (es :: rest) := by
  cases hr : allNil rest with
  | true =>
      cases es with
      | nil =>
          simp [stackClean_cons, hr, endsClean_single_leaf k v hnotnm,
            endsClean_nil]
      | cons e2 es2 =>
          simp [stackClean_cons, hr, endsClean_cons_cons]
  | false =>
      simp [stackClean_cons, hr]

theorem stepShadow_clean (sh : List Dict) :
    (stepShadow sh = .crashed → stackClean sh = false) ∧
      (∀ k sh', stepShadow sh = .yielded k sh' →
        stackClean sh = stackClean sh') := by
  induction sh using stepShadow.induct with
  | case1 =>
      constructor
      · intro h
        rw [stepShadow] at h
        cases h
      · intro k sh' h
        rw [stepShadow] at h
        cases h
  | case2 rest ih =>
      have hstep : stepShadow ([] :: rest) = stepShadow rest := by
        rw [stepShadow]
      constructor
      · intro h
        rw [hstep] at h
        rw [stackClean_cons_nil]
        exact ih.1 h
      · intro k sh' h
        rw [hstep] at h
        rw [stackClean_cons_nil]
        exact ih.2 k sh' h
  | case3 k0 c es rest hs ih =>
      have hstep : stepShadow (((k0, Val.nm c) :: es) :: rest) =
          ShadowStep.crashed := by
        rw [stepShadow, hs]
      constructor
      · intro _
        have hall := stepShadow_stop_allNil _ hs
        cases c with
        | cons e c2 =>
            rw [allNil_cons_cons] at hall
            cases hall
        | nil =>
            cases es with
            | cons e es2 =>
                rw [allNil_nil_cons, allNil_cons_cons] at hall
                cases hall
            | nil =>
                rw [allNil_nil_cons, allNil_nil_cons] at hall
                simp [stackClean_cons, hall, endsClean_single_nm_nil]
      · intro k sh' h
        rw [hstep] at h
        cases h
  | case4 k0 c es rest hns ih =>
      have hstep : stepShadow (((k0, Val.nm c) :: es) :: rest) =
          stepShadow (c :: es :: rest) := by
        rw [stepShadow]
        cases hs : stepShadow (c :: es :: rest) with
        | stop => exact (hns hs).elim
        | crashed => rfl
        | yielded k2 sh2 => rfl
      have hne : allNil (c :: es :: rest) = false := by
        cases hall : allNil (c :: es :: rest) with
        | false => rfl
        | true => exact (hns (allNil_stepShadow _ hall)).elim
      constructor
      · intro h
        rw [hstep] at h
        rw [stackClean_push k0 c es rest hne]
        exact ih.1 h
      · intro k sh' h
        rw [hstep] at h
        rw [stackClean_push k0 c es rest hne]
        exact ih.2 k sh' h
  | case5 k0 v es rest hnotnm =>
      have hstep : stepShadow (((k0, v) :: es) :: rest) =
          .yielded k0 (es :: rest) := by
        rw [stepShadow]
        exact hnotnm
      constructor
      · intro h
        rw [hstep] at h
        cases h
      · intro k sh' h
        rw [hstep] at h
        simp only [ShadowStep.yielded.injEq] at h
        obtain ⟨rfl, rfl⟩ := h
        exact stackClean_leaf k0 v es rest hnotnm

theorem keysOf_cons (e : Key × Val) (d : Dict) :
    keysOf (e :: d) = e.1 :: keysOf d := rfl

theorem goodSuffix_tail {t : Dict} {e : Key × Val} {es : Dict}
    (h : GoodSuffix t (e :: es)) : GoodSuffix t es := by
  obtain ⟨n, hsub, hsuf⟩ := h
  exact ⟨n, hsub, (List.suffix_cons e es).trans hsuf⟩

theorem goodSuffix_child {t : Dict} {k : Key} {c es : Dict}
    (h : GoodSuffix t ((k, Val.nm c) :: es)) : GoodSuffix t c := by
  obtain ⟨n, hsub, hsuf⟩ := h
  have hmem : (k, Val.nm c) ∈ n := hsuf.subset (List.mem_cons_self _ _)
  exact ⟨c, hsub.trans (SubNode.step hmem (SubNode.refl c)),
    List.suffix_refl c⟩

theorem stepShadow_inv {t : Dict} (sh : List Dict) :
    (∀ es ∈ sh, GoodSuffix t es) →
      ∀ k sh', stepShadow sh = .yielded k sh' →
        ∀ es ∈ sh', GoodSuffix t es := by
  induction sh using stepShadow.induct with
  | case1 =>
      intro _ k sh' h
      rw [stepShadow] at h
      cases h
  | case2 rest ih =>
      intro hinv k sh' h
      rw [stepShadow] at h
      exact ih (fun es hes => hinv es (List.mem_cons_of_mem _ hes)) k sh' h
  | case3 k0 c es rest hs ih =>
      intro hinv k sh' h
      have hstep : stepShadow (((k0, Val.nm c) :: es) :: rest) =
          ShadowStep.crashed := by
        rw [stepShadow, hs]
      rw [hstep] at h
      cases h
  | case4 k0 c es rest hns ih =>
      intro hinv k sh' h
      have hstep : stepShadow (((k0, Val.nm c) :: es) :: rest) =
          stepShadow (c :: es :: rest) := by
        rw [stepShadow]
        cases hs : stepShadow (c :: es :: rest) with
        | stop => exact (hns hs).elim
        | crashed => rfl
        | yielded k2 sh2 => rfl
      rw [hstep] at h
      have hinv2 : ∀ es2 ∈ (c :: es :: rest), GoodSuffix t es2 := by
        intro es2 hes2
        rcases List.mem_cons.mp hes2 with rfl | hes2
        · exact goodSuffix_child (hinv _ (List.mem_cons_self _ _))
        rcases List.mem_cons.mp hes2 with rfl | hes2
        · exact goodSuffix_tail (hinv _ (List.mem_cons_self _ _))
        · exact hinv _ (List.mem_cons_of_mem _ hes2)
      exact ih hinv2 k sh' h
  | case5 k0 v es rest hnotnm =>
      intro hinv k sh' h
      have hstep : stepShadow (((k0, v) :: es) :: rest) =
          .yielded k0 (es :: rest) := by
        rw [stepShadow]
        exact hnotnm
      rw [hstep] at h
      simp only [ShadowStep.yielded.injEq] at h
      obtain ⟨rfl, rfl⟩ := h
      intro es2 hes2
      rcases List.mem_cons.mp hes2 with rfl | hes2
      · exact goodSuffix_tail (hinv _ (List.mem_cons_self _ _))
      · exact hinv _ (List.mem_cons_of_mem _ hes2)

theorem nextIter_shadow {t : Dict} (hnd : (allKeys t).Nodup) :
    ∀ (N : Nat) (sh : List Dict), shadowFuel sh + sh.length ≤ N →
      (∀ es ∈ sh, GoodSuffix t es) →
      ∀ f, shadowFuel sh + sh.length + 1 ≤ f →
        nextIter f ⟨t, sh.map keysOf⟩ =
          some (encodeStep t (stepShadow sh)) := by
  intro N
  induction N with
  | zero =>
      intro sh hμ _ f hf
      have hsh : sh = [] := by
        cases sh with
        | nil => rfl
        | cons a b =>
            exfalso
            simp only [List.length_cons] at hμ
            omega
      subst hsh
      match f, hf with
      | f + 1, _ =>
          rw [show stepShadow [] = ShadowStep.stop from by rw [stepShadow]]
          simp [nextIter, encodeStep]
  | succ N ih =>
      intro sh hμ hinv f hf
      match f, hf with
      | f + 1, hf =>
      match sh with
      | [] =>
          rw [show stepShadow [] = ShadowStep.stop from by rw [stepShadow]]
          simp [nextIter, encodeStep]
      | [] :: rest =>
          have hent : entFuel ([] : Dict) = 0 := by simp [entFuel]
          have hμ2 : shadowFuel rest + rest.length ≤ N := by
            rw [shadowFuel_cons, hent] at hμ
            simp only [List.length_cons] at hμ
            omega
          have hf2 : shadowFuel rest + rest.length + 1 ≤ f := by
            rw [shadowFuel_cons, hent] at hf
            simp only [List.length_cons] at hf
            omega
          have hinv2 : ∀ es ∈ rest, GoodSuffix t es :=
            fun es hes => hinv es (List.mem_cons_of_mem _ hes)
          have hrec := ih rest hμ2 hinv2 f hf2
          rw [show stepShadow ([] :: rest) = stepShadow rest from by
            rw [stepShadow]]
          simp only [List.map_cons,
            show keysOf ([] : Dict) = [] from rfl]
          rw [show nextIter (f + 1) ⟨t, [] :: List.map keysOf rest⟩ =
              nextIter f ⟨t, List.map keysOf rest⟩ from by rw [nextIter]]
          exact hrec
      | ((k, v) :: es) :: rest =>
          obtain ⟨n, hsub, hsuf⟩ := hinv _ (List.mem_cons_self _ _)
          have hmem : (k, v) ∈ n := hsuf.subset (List.mem_cons_self _ _)
          have hnodupn : (keysOf n).Nodup :=
            keysOf_nodup_of_allKeys (hsub.allKeys_sublist.nodup hnd)
          have hget : getitem t k = .ok v :=
            getitem_unique hnd hsub (mem_lookupD hnodupn hmem)
          simp only [List.map_cons, keysOf_cons]
          cases v with
          | nm c =>
              have hμ2 : shadowFuel (c :: es :: rest) +
                  (c :: es :: rest).length ≤ N := by
                simp only [shadowFuel_cons, entFuel_cons, valFuel,
                  List.length_cons] at hμ ⊢
                omega
              have hf2 : shadowFuel (c :: es :: rest) +
                  (c :: es :: rest).length + 1 ≤ f := by
                simp only [shadowFuel_cons, entFuel_cons, valFuel,
                  List.length_cons] at hf ⊢
                omega
              have hinv2 : ∀ es2 ∈ (c :: es :: rest), GoodSuffix t es2 := by
                intro es2 hes2
                rcases List.mem_cons.mp hes2 with rfl | hes2
                · exact goodSuffix_child (hinv _ (List.mem_cons_self _ _))
                rcases List.mem_cons.mp hes2 with rfl | hes2
                · exact goodSuffix_tail (hinv _ (List.mem_cons_self _ _))
                · exact hinv _ (List.mem_cons_of_mem _ hes2)
              have hrec := ih (c :: es :: rest) hμ2 hinv2 f hf2
              rw [show stepShadow (((k, Val.nm c) :: es) :: rest) =
                  (match stepShadow (c :: es :: rest) with
                   | .stop => ShadowStep.crashed
                   | r => r) from by rw [stepShadow]]
              cases hs : stepShadow (c :: es :: rest) <;>
                rw [hs] at hrec <;>
                simp only [encodeStep, List.map_cons] at hrec <;>
                simp [nextIter, hget, hrec, encodeStep]
          | prim x =>
              rw [show stepShadow (((k, Val.prim x) :: es) :: rest) =
                  ShadowStep.yielded k (es :: rest) from by
                rw [stepShadow]
                intro c hc
                cases hc]
              simp [nextIter, hget, encodeStep]
          | pdict c =>
              rw [show stepShadow (((k, Val.pdict c) :: es) :: rest) =
                  ShadowStep.yielded k (es :: rest) from by
                rw [stepShadow]
                intro c2 hc
                cases hc]
              simp [nextIter, hget, encodeStep]

theorem runTrace_shadow {t : Dict} (hnd : (allKeys t).Nodup) :
    ∀ (N : Nat) (sh : List Dict), shadowFuel sh + sh.length ≤ N →
      (∀ es ∈ sh, GoodSuffix t es) →
      ∀ fo fi, shadowFuel sh + sh.length + 1 ≤ fo →
        shadowFuel sh + sh.length + 1 ≤ fi →
        runTrace fo fi ⟨t, sh.map keysOf⟩ =
          some ((sh.map leafKeys).flatten,
            if stackClean sh = true then Except.ok ()
            else Except.error PyErr.indexError) := by
  intro N
  induction N with
  | zero =>
      intro sh hμ _ fo fi hfo hfi
      have hsh : sh = [] := by
        cases sh with
        | nil => rfl
        | cons a b =>
            exfalso
            simp only [List.length_cons] at hμ
            omega
      subst hsh
      match fo, hfo, fi, hfi with
      | fo + 1, _, fi + 1, _ =>
          simp [runTrace, nextIter, stackClean]
  | succ N ih =>
      intro sh hμ hinv fo fi hfo hfi
      match fo, hfo with
      | fo + 1, hfo =>
      have hnext := nextIter_shadow hnd (N + 1) sh hμ hinv fi hfi
      cases hs : stepShadow sh with
      | stop =>
          rw [hs] at hnext
          simp only [encodeStep] at hnext
          have hflat := (stepShadow_spec sh).1 hs
          have hcl : stackClean sh = true :=
            allNil_stackClean sh (stepShadow_stop_allNil sh hs)
          rw [hflat, hcl]
          simp [runTrace, hnext]
      | crashed =>
          rw [hs] at hnext
          simp only [encodeStep] at hnext
          have hflat := (stepShadow_spec sh).2.1 hs
          have hcl := (stepShadow_clean sh).1 hs
          rw [hflat, hcl]
          simp [runTrace, hnext]
      | yielded k sh2 =>
          rw [hs] at hnext
          simp only [encodeStep] at hnext
          have hspec := (stepShadow_spec sh).2.2 k sh2 hs
          have hcl := (stepShadow_clean sh).2 k sh2 hs
          have hlt := hspec.2
          have hμ2 : shadowFuel sh2 + sh2.length ≤ N := by omega
          have hinv2 := stepShadow_inv sh hinv k sh2 hs
          have hrec := ih sh2 hμ2 hinv2 fo fi (by omega) (by omega)
          rw [hspec.1, hcl]
          simp [runTrace, hnext, hrec]

/-- On a tree whose keys are globally unique, a fresh `NestedIterator`
driven by repeated `__next__` calls yields exactly the depth-first leaf
keys and then ends the iteration: cleanly with `StopIteration` when the
depth-first consumption order ends with a non-branch entry, and with the
`IndexError` crash otherwise.  Fuel `entFuel t + 2` suffices for both the
number of `__next__` calls and the internal recursion of each call. -/
theorem runTrace_leafKeys {t : Dict} (hnd : (allKeys t).Nodup) :
    runTrace (entFuel t + 2) (entFuel t + 2) (initIter t) =
      some (leafKeys t,
        if endsClean t = true then Except.ok ()
        else Except.error PyErr.indexError) := by
  have hμ : shadowFuel [t] + ([t] : List Dict).length = entFuel t + 1 := by
    simp [shadowFuel]
  have hinv : ∀ es ∈ ([t] : List Dict), GoodSuffix t es := by
    intro es hes
    rcases List.mem_cons.mp hes with rfl | hes
    · exact ⟨es, SubNode.refl es, List.suffix_refl es⟩
    · cases hes
  have h := runTrace_shadow hnd (entFuel t + 1) [t] (by omega) hinv
      (entFuel t + 2) (entFuel t + 2) (by omega) (by omega)
  have hsc : stackClean [t] = endsClean t := rfl
  rw [hsc] at h
  simpa [initIter, keysOf] using h

/-- On a tree whose keys are globally unique and whose depth-first
consumption order ends with a non-branch entry, the validation loop
completes cleanly and collects exactly the depth-first leaf keys. -/
theorem runIter_leafKeys {t : Dict} (hnd : (allKeys t).Nodup)
    (hcl : endsClean t = true) :
    runIter (entFuel t + 2) (entFuel t + 2) (initIter t) =
      some (Except.ok (leafKeys t)) := by
  simp [runIter, runTrace_leafKeys hnd, hcl]

/-- Once the stack is empty, every further `__next__` call raises
`StopIteration` again: the raise at lines 26-27 happens before the `try`,
so a fresh call on an exhausted iterator never crashes. -/
theorem nextIter_exhausted (t : Dict) (f : Nat) :
    nextIter (f + 1) ⟨t, []⟩ = some (.stop []) := by
  rw [nextIter]

theorem endsClean_append_leaf (d : Dict) (k : Key) (c : Dict) :
    endsClean (d ++ [(k, Val.pdict c)]) = true := by
  induction d with
  | nil =>
      simp only [List.nil_append]
      simp [endsClean]
  | cons e d2 ih =>
      cases d2 with
      | nil =>
          simp only [List.cons_append, List.nil_append]
          rw [endsClean_cons_cons]
          simp [endsClean]
      | cons e2 d3 =>
          simp only [List.cons_append] at ih ⊢
          rw [endsClean_cons_cons]
          exact ih

theorem leafKeys_sublist_allKeys (d : Dict) :
    List.Sublist (leafKeys d) (allKeys d) := by
  induction d using dictSizeInd with
  | step d ih =>
      match d with
      | [] => simp [leafKeys, allKeys]
      | (k, Val.nm c) :: rest =>
          have ihc := ih c (sizeOf_nm_lt k c rest)
          have ihr := ih rest (sizeOf_tail_lt _ _)
          simp only [leafKeys, allKeys, valKeys]
          exact (ihc.append ihr).trans (List.sublist_cons_self _ _)
      | (k, Val.prim x) :: rest =>
          have ihr := ih rest (sizeOf_tail_lt _ _)
          simp only [leafKeys, allKeys, valKeys, List.nil_append]
          exact ihr.cons₂ k
      | (k, Val.pdict c) :: rest =>
          have ihr := ih rest (sizeOf_tail_lt _ _)
          simp only [leafKeys, allKeys, valKeys, List.nil_append]
          exact ihr.cons₂ k

theorem count_leaf_branch (key : Key) (d : Dict) :
    (leafKeys d).count key + (branchKeys d).count key =
      (allKeys d).count key := by
  induction d using dictSizeInd with
  | step d ih =>
      match d with
      | [] => simp [leafKeys, branchKeys, allKeys]
      | (k, Val.nm c) :: rest =>
          have ihc := ih c (sizeOf_nm_lt k c rest)
          have ihr := ih rest (sizeOf_tail_lt _ _)
          simp only [leafKeys, branchKeys, allKeys, valKeys,
            List.count_append, List.count_cons, beq_iff_eq]
          by_cases hk : key = k
          · subst hk
            simp
            omega
          · omega
      | (k, Val.prim x) :: rest =>
          have ihr := ih rest (sizeOf_tail_lt _ _)
          simp only [leafKeys, branchKeys, allKeys, valKeys,
            List.count_append, List.count_cons, beq_iff_eq, List.nil_append]
          by_cases hk : key = k
          · subst hk
            simp
            omega
          · omega
      | (k, Val.pdict c) :: rest =>
          have ihr := ih rest (sizeOf_tail_lt _ _)
          simp only [leafKeys, branchKeys, allKeys, valKeys,
            List.count_append, List.count_cons, beq_iff_eq, List.nil_append]
          by_cases hk : key = k
          · subst hk
            simp
            omega
          · omega

/-- Under global key uniqueness, no leaf key is also a branch name. -/
theorem leaf_branch_disjoint {d : Dict} (hnd : (allKeys d).Nodup) {k : Key}
    (hl : k ∈ leafKeys d) : k ∉ branchKeys d := by
  intro hb
  have h1 : 1 ≤ (leafKeys d).count k := List.one_le_count_iff.mpr hl
  have h2 : 1 ≤ (branchKeys d).count k := List.one_le_count_iff.mpr hb
  have h3 := count_leaf_branch k d
  have h4 : (allKeys d).count k ≤ 1 :=
    List.nodup_iff_count_le_one.mp hnd k
  omega

theorem mem_leavesRec_iff {d : Dict} {k : Key} :
    k ∈ leavesRec d ↔ k ∈ leafKeys d := by
  induction d using dictSizeInd with
  | step d ih =>
      match d with
      | [] =>
          rw [leavesRec]
          simp [get_leaves, leavesFold, leafKeys, keysOf]
      | (k0, Val.nm c) :: rest =>
          have ihc := ih c (sizeOf_nm_lt k0 c rest)
          have ihr := ih rest (sizeOf_tail_lt _ _)
          rw [leavesRec] at ihr ⊢
          rw [get_leaves_cons_nm]
          simp only [leavesFold, leafKeys, List.mem_append] at ihr ⊢
          tauto
      | (k0, Val.prim x) :: rest =>
          have ihr := ih rest (sizeOf_tail_lt _ _)
          rw [leavesRec] at ihr ⊢
          rw [get_leaves_cons_prim]
          simp only [leavesFold, leafKeys, keysOf, List.map_cons,
            List.mem_cons, List.mem_append] at ihr ⊢
          tauto
      | (k0, Val.pdict c) :: rest =>
          have ihr := ih rest (sizeOf_tail_lt _ _)
          rw [leavesRec] at ihr ⊢
          rw [get_leaves_cons_pdict]
          simp only [leavesFold, leafKeys, keysOf, List.map_cons,
            List.mem_cons, List.mem_append] at ihr ⊢
          tauto

/-! ### Writes: new keys land at the root, unique keys are edited in place -/

theorem valsKeys_append (a b : Dict) :
    valsKeys (a ++ b) = valsKeys a ++ valsKeys b := by
  induction a with
  | nil => simp [valsKeys]
  | cons hd tl ih =>
      cases hd with
      | mk k v => simp [valsKeys, ih]

theorem lookupD_append_fresh {d : Dict} {k : Key} {v : Val}
    (h : hasKey d k = false) : lookupD (d ++ [(k, v)]) k = some v := by
  rw [lookupD_append]
  have h2 : lookupD d k = none := by
    cases hl : lookupD d k with
    | none => rfl
    | some w =>
        rw [hasKey, hl] at h
        simp at h
  rw [h2]
  simp [lookupD]

theorem hasKey_false_of_not_allKeys {d : Dict} {k : Key}
    (h : k ∉ allKeys d) : hasKey d k = false :=
  hasKey_false_iff.mpr (fun hm => h (mem_keysOf_mem_allKeys hm))

theorem find_data_absent {d : Dict} {key : Key} (h : key ∉ allKeys d) :
    find_data d key = .error (.keyError key) := by
  rw [find_data_eq_occ, occPaths_eq_nil_iff.mpr h]
  rfl

/-- Inserting a fresh key (absent from the whole tree, and not present inside
the inserted value either) makes it the last top-level entry, and the search
then resolves it at the root. -/
theorem find_data_fresh {d : Dict} {key : Key} {v : Val}
    (h1 : key ∉ allKeys d) (h2 : key ∉ valKeys v) :
    find_data (d ++ [(key, v)]) key = .ok [] := by
  have hocc : occPaths (d ++ [(key, v)]) key = [[]] := by
    rw [occPaths]
    have hk : hasKey (d ++ [(key, v)]) key = true := by
      rw [hasKey, lookupD_append_fresh (hasKey_false_of_not_allKeys h1)]
      rfl
    rw [hk]
    have hfold : occFold key (d ++ [(key, v)]) = [] := by
      rw [occFold_eq_nil_iff, valsKeys_append]
      rw [List.mem_append]
      push_neg
      constructor
      · intro hm
        exact h1 (mem_allKeys_iff.mpr (Or.inr hm))
      · simp [valsKeys]
        exact h2
    rw [hfold]
    simp
  rw [find_data_eq_occ, hocc]
  rfl

theorem setitem_fresh {d : Dict} {key : Key} {v : Val}
    (h1 : key ∉ allKeys d) : setitem d key v = d ++ [(key, v)] := by
  rw [setitem, find_data_absent h1]
  exact setK_eq_append (hasKey_false_of_not_allKeys h1)

theorem getitem_after_fresh {d : Dict} {key : Key} {v : Val}
    (h1 : key ∉ allKeys d) (h2 : key ∉ valKeys v) :
    getitem (d ++ [(key, v)]) key = .ok v := by
  rw [getitem, find_data_fresh h1 h2]
  simp only [getData]
  rw [lookupD_append_fresh (hasKey_false_of_not_allKeys h1)]

/-! ### Validity of the paths returned by the search -/

theorem occFold_elim {d : Dict} {key : Key} {p : List Key}
    (hp : p ∈ occFold key d) :
    ∃ k0 c p', p = k0 :: p' ∧ (k0, Val.nm c) ∈ d ∧ p' ∈ occPaths c key := by
  induction d with
  | nil =>
      rw [occFold] at hp
      cases hp
  | cons hd tl ih =>
      cases hd with
      | mk k1 v1 =>
          cases v1 with
          | nm c1 =>
              rw [occFold] at hp
              rcases List.mem_append.mp hp with hl | hr
              · obtain ⟨p', hp', he⟩ := List.mem_map.mp hl
                exact ⟨k1, c1, p', he.symm, List.mem_cons_self _ _, hp'⟩
              · obtain ⟨k0, c, p', he, hm, hpp⟩ := ih hr
                exact ⟨k0, c, p', he, List.mem_cons_of_mem _ hm, hpp⟩
          | prim x =>
              rw [show occFold key ((k1, Val.prim x) :: tl) = occFold key tl
                from by rw [occFold]; simp] at hp
              obtain ⟨k0, c, p', he, hm, hpp⟩ := ih hp
              exact ⟨k0, c, p', he, List.mem_cons_of_mem _ hm, hpp⟩
          | pdict c1 =>
              rw [show occFold key ((k1, Val.pdict c1) :: tl) = occFold key tl
                from by rw [occFold]; simp] at hp
              obtain ⟨k0, c, p', he, hm, hpp⟩ := ih hp
              exact ⟨k0, c, p', he, List.mem_cons_of_mem _ hm, hpp⟩

theorem nil_mem_occPaths {d : Dict} {key : Key}
    (h : ([] : List Key) ∈ occPaths d key) : hasKey d key = true := by
  rw [occPaths] at h
  rcases List.mem_append.mp h with hl | hr
  · by_cases hk : hasKey d key
    · exact hk
    · rw [if_neg hk] at hl
      cases hl
  · obtain ⟨k0, c, p', he, _, _⟩ := occFold_elim hr
    cases he

theorem getData_valid :
    ∀ t : Dict, (∀ n, SubNode t n → (keysOf n).Nodup) →
      ∀ (key : Key) (p : List Key), p ∈ occPaths t key →
        ∃ n, getData t p = some n ∧ SubNode t n ∧ hasKey n key = true := by
  intro t
  induction t using dictSizeInd with
  | step t ih =>
      intro hwf key p hp
      rw [occPaths] at hp
      rcases List.mem_append.mp hp with hl | hr
      · by_cases hk : hasKey t key
        · rw [if_pos hk] at hl
          rcases List.mem_cons.mp hl with rfl | hl2
          · exact ⟨t, rfl, SubNode.refl t, hk⟩
          · cases hl2
        · rw [if_neg hk] at hl
          cases hl
      · obtain ⟨k0, c, p', rfl, hm, hpp⟩ := occFold_elim hr
        have hsz : sizeOf c < sizeOf t := by
          have h2 := sizeOf_snd_lt_of_mem hm
          simp only [Val.nm.sizeOf_spec] at h2
          omega
        have hwfc : ∀ n, SubNode c n → (keysOf n).Nodup :=
          fun n hn => hwf n (SubNode.step hm hn)
        obtain ⟨n, hg, hsn, hk⟩ := ih c hsz hwfc key p' hpp
        refine ⟨n, ?_, SubNode.step hm hsn, hk⟩
        rw [getData_cons_of_mem (hwf t (SubNode.refl t)) hm]
        exact hg

theorem nodesWF_of_nodup {t : Dict} (h : (allKeys t).Nodup) :
    ∀ n, SubNode t n → (keysOf n).Nodup :=
  fun n hn => keysOf_nodup_of_allKeys (hn.allKeys_sublist.nodup h)

/-- A key with exactly one occurrence tree-wide, not at the root, is found at
a non-empty path that points to a node holding it. -/
theorem find_data_single {t : Dict} {key : Key}
    (hwf : ∀ n, SubNode t n → (keysOf n).Nodup)
    (hcnt : (allKeys t).count key = 1) (hnk : hasKey t key = false) :
    ∃ p owner, find_data t key = .ok p ∧ p ≠ [] ∧
      getData t p = some owner ∧ hasKey owner key = true ∧
      SubNode t owner := by
  have hmem : key ∈ allKeys t := List.one_le_count_iff.mp (by omega)
  have hne : occPaths t key ≠ [] := (occ_ne_nil_aux key t).2.mpr hmem
  obtain ⟨p, hp⟩ := List.exists_mem_of_ne_nil _ hne
  have hlen := (occ_counts key t).1
  have hsing : occPaths t key = [p] :=
    eq_singleton_of_mem_of_len hp (by omega)
  obtain ⟨owner, hg, hsn, hk⟩ := getData_valid t hwf key p hp
  refine ⟨p, owner, ?_, ?_, hg, hk, hsn⟩
  · rw [find_data_eq_occ, hsing]
    rfl
  · intro he
    subst he
    rw [nil_mem_occPaths hp] at hnk
    cases hnk

/-! ### Editing through a path handle -/

theorem modAtPath_cons_hit_nm (f : Dict → Dict) {k1 k : Key} (c : Dict)
    (tl : Dict) (p : List Key) (hk : k1 = k) :
    modAtPath f ((k1, Val.nm c) :: tl) (k :: p) =
      (k1, Val.nm (modAtPath f c p)) :: modAtPath f tl (k :: p) := by
  simp [modAtPath, hk]

theorem modAtPath_cons_hit_prim (f : Dict → Dict) {k1 k : Key} (x : Nat)
    (tl : Dict) (p : List Key) (hk : k1 = k) :
    modAtPath f ((k1, Val.prim x) :: tl) (k :: p) =
      (k1, Val.prim x) :: modAtPath f tl (k :: p) := by
  simp [modAtPath, hk]

theorem modAtPath_cons_hit_pdict (f : Dict → Dict) {k1 k : Key} (c : Dict)
    (tl : Dict) (p : List Key) (hk : k1 = k) :
    modAtPath f ((k1, Val.pdict c) :: tl) (k :: p) =
      (k1, Val.pdict c) :: modAtPath f tl (k :: p) := by
  simp [modAtPath, hk]

theorem modAtPath_cons_miss (f : Dict → Dict) {k1 k : Key} (v1 : Val)
    (tl : Dict) (p : List Key) (hk : ¬k1 = k) :
    modAtPath f ((k1, v1) :: tl) (k :: p) =
      (k1, v1) :: modAtPath f tl (k :: p) := by
  simp [modAtPath, hk]

theorem keysOf_modAtPath (f : Dict → Dict) (d : Dict) (k : Key)
    (p : List Key) : keysOf (modAtPath f d (k :: p)) = keysOf d := by
  induction d with
  | nil => rfl
  | cons hd tl ih =>
      obtain ⟨k1, v1⟩ := hd
      by_cases hk : k1 = k
      · cases v1 with
        | nm c =>
            rw [modAtPath_cons_hit_nm f c tl p hk, keysOf_cons, keysOf_cons,
              ih]
        | prim x =>
            rw [modAtPath_cons_hit_prim f x tl p hk, keysOf_cons, keysOf_cons,
              ih]
        | pdict c =>
            rw [modAtPath_cons_hit_pdict f c tl p hk, keysOf_cons,
              keysOf_cons, ih]
      · rw [modAtPath_cons_miss f v1 tl p hk, keysOf_cons, keysOf_cons, ih]

theorem get_leaves_modAtPath (f : Dict → Dict) (d : Dict) (k : Key)
    (p : List Key) : get_leaves (modAtPath f d (k :: p)) = get_leaves d := by
  induction d with
  | nil => rfl
  | cons hd tl ih =>
      obtain ⟨k1, v1⟩ := hd
      by_cases hk : k1 = k
      · cases v1 with
        | nm c =>
            rw [modAtPath_cons_hit_nm f c tl p hk, get_leaves_cons_nm,
              get_leaves_cons_nm, ih]
        | prim x =>
            rw [modAtPath_cons_hit_prim f x tl p hk, get_leaves_cons_prim,
              get_leaves_cons_prim, ih]
        | pdict c =>
            rw [modAtPath_cons_hit_pdict f c tl p hk, get_leaves_cons_pdict,
              get_leaves_cons_pdict, ih]
      · cases v1 with
        | nm c =>
            rw [modAtPath_cons_miss f _ tl p hk, get_leaves_cons_nm,
              get_leaves_cons_nm, ih]
        | prim x =>
            rw [modAtPath_cons_miss f _ tl p hk, get_leaves_cons_prim,
              get_leaves_cons_prim, ih]
        | pdict c =>
            rw [modAtPath_cons_miss f _ tl p hk, get_leaves_cons_pdict,
              get_leaves_cons_pdict, ih]

theorem lookupD_modAtPath {d : Dict} {k : Key} {c : Dict}
    (f : Dict → Dict) (p : List Key) (h : lookupD d k = some (Val.nm c)) :
    lookupD (modAtPath f d (k :: p)) k = some (Val.nm (modAtPath f c p)) := by
  induction d with
  | nil => simp [lookupD] at h
  | cons hd tl ih =>
      obtain ⟨k1, v1⟩ := hd
      by_cases hk : k1 = k
      · subst hk
        simp only [lookupD, if_pos rfl] at h
        cases h
        rw [modAtPath_cons_hit_nm f c tl p rfl]
        simp [lookupD]
      · simp only [lookupD, if_neg hk] at h
        cases v1 with
        | nm c1 =>
            rw [modAtPath_cons_miss f _ tl p hk]
            simp only [lookupD, if_neg hk]
            exact ih h
        | prim x =>
            rw [modAtPath_cons_miss f _ tl p hk]
            simp only [lookupD, if_neg hk]
            exact ih h
        | pdict c1 =>
            rw [modAtPath_cons_miss f _ tl p hk]
            simp only [lookupD, if_neg hk]
            exact ih h

theorem getData_modAtPath (f : Dict → Dict) :
    ∀ (p : List Key) (d owner : Dict), getData d p = some owner →
      getData (modAtPath f d p) p = some (f owner) := by
  intro p
  induction p with
  | nil =>
      intro d owner h
      simp only [getData] at h
      cases h
      simp [modAtPath, getData]
  | cons k p ih =>
      intro d owner h
      simp only [getData] at h
      cases hl : lookupD d k with
      | none =>
          rw [hl] at h
          simp at h
      | some v =>
          rw [hl] at h
          cases v with
          | nm c =>
              have h2 := lookupD_modAtPath f p hl
              simp only [getData, h2]
              simp only at h
              exact ih c owner h
          | prim x => simp at h
          | pdict c => simp at h

theorem lookupD_setK_self (d : Dict) (k : Key) (v : Val) :
    lookupD (setK d k v) k = some v := by
  induction d with
  | nil => simp [setK, lookupD]
  | cons hd tl ih =>
      cases hd with
      | mk k1 v1 =>
          by_cases hk : k1 = k
          · subst hk
            simp [setK, lookupD]
          · simp [setK, lookupD, hk, ih]

/-! ### The round trip through recursive construction and `to_dict` -/

theorem mem_keysOf_iff {d : Dict} {x : Key} :
    x ∈ keysOf d ↔ ∃ v, (x, v) ∈ d := by
  simp only [keysOf, List.mem_map]
  constructor
  · rintro ⟨⟨k, v⟩, he, rfl⟩
    exact ⟨v, he⟩
  · rintro ⟨v, hv⟩
    exact ⟨(x, v), hv, rfl⟩

theorem plainDict_mem {d : Dict} {k : Key} {v : Val}
    (hd : plainDict d = true) (hm : (k, v) ∈ d) : plainVal v = true := by
  induction d with
  | nil => cases hm
  | cons hd2 tl ih =>
      obtain ⟨k1, v1⟩ := hd2
      rw [show plainDict ((k1, v1) :: tl) = (plainVal v1 && plainDict tl)
        from by rw [plainDict]] at hd
      rw [Bool.and_eq_true] at hd
      rcases List.mem_cons.mp hm with he | hm2
      · cases he
        exact hd.1
      · exact ih hd.2 hm2

theorem plainVal_pdict {c : Dict} (h : plainVal (Val.pdict c) = true) :
    plainDict c = true := by
  rw [plainVal] at h
  exact h

theorem keysOf_sublist_plainKeys (d : Dict) :
    List.Sublist (keysOf d) (plainKeys d) := by
  induction d with
  | nil => simp [keysOf, plainKeys]
  | cons hd tl ih =>
      obtain ⟨k, v⟩ := hd
      rw [keysOf_cons]
      rw [show plainKeys ((k, v) :: tl) = k :: (plainValKeys v ++ plainKeys tl)
        from by rw [plainKeys]]
      exact (ih.trans (List.sublist_append_right _ _)).cons₂ k

theorem plainKeys_sublist_of_mem {d c : Dict} {k : Key}
    (hm : (k, Val.pdict c) ∈ d) :
    List.Sublist (plainKeys c) (plainKeys d) := by
  induction d with
  | nil => cases hm
  | cons hd tl ih =>
      obtain ⟨k1, v1⟩ := hd
      rw [show plainKeys ((k1, v1) :: tl) =
          k1 :: (plainValKeys v1 ++ plainKeys tl) from by rw [plainKeys]]
      rcases List.mem_cons.mp hm with he | hm2
      · cases he
        rw [show plainValKeys (Val.pdict c) = plainKeys c
          from by rw [plainValKeys]]
        exact ((List.sublist_append_left _ _).trans
          (List.sublist_cons_self _ _))
      · exact ((ih hm2).trans
          ((List.sublist_append_right _ _).trans (List.sublist_cons_self _ _)))

theorem mem_get_leaves_wrapRec {d : Dict} (hd : plainDict d = true)
    {e : Key × Val} :
    e ∈ get_leaves (wrapRec d) ↔ e ∈ d ∧ ∃ x, e.2 = Val.prim x := by
  induction d with
  | nil => simp [wrapRec, get_leaves]
  | cons hd2 tl ih =>
      obtain ⟨k, v⟩ := hd2
      rw [show plainDict ((k, v) :: tl) = (plainVal v && plainDict tl)
        from by rw [plainDict]] at hd
      rw [Bool.and_eq_true] at hd
      have ihtl := ih hd.2
      cases v with
      | prim x =>
          rw [show wrapRec ((k, Val.prim x) :: tl) =
              (k, Val.prim x) :: wrapRec tl from by rw [wrapRec]; simp]
          rw [get_leaves_cons_prim]
          simp only [List.mem_cons]
          constructor
          · rintro (rfl | h)
            · exact ⟨Or.inl rfl, x, rfl⟩
            · have h2 := ihtl.mp h
              exact ⟨Or.inr h2.1, h2.2⟩
          · rintro ⟨rfl | h, hx⟩
            · exact Or.inl rfl
            · exact Or.inr (ihtl.mpr ⟨h, hx⟩)
      | pdict c =>
          rw [show wrapRec ((k, Val.pdict c) :: tl) =
              (k, Val.nm (wrapRec c)) :: wrapRec tl from by rw [wrapRec]]
          rw [get_leaves_cons_nm]
          simp only [List.mem_cons]
          constructor
          · intro h
            have h2 := ihtl.mp h
            exact ⟨Or.inr h2.1, h2.2⟩
          · rintro ⟨rfl | h, hx⟩
            · obtain ⟨x, hx⟩ := hx
              cases hx
            · exact ihtl.mpr ⟨h, hx⟩
      | nm c =>
          rw [show plainVal (Val.nm c) = false from by rw [plainVal]] at hd
          cases hd.1

theorem mem_to_dictFold_wrapRec {d : Dict} (hd : plainDict d = true)
    {e : Key × Val} :
    e ∈ to_dictFold (wrapRec d) ↔
      ∃ k c, e = (k, Val.pdict (to_dict (wrapRec c))) ∧
        (k, Val.pdict c) ∈ d := by
  induction d with
  | nil =>
      rw [show wrapRec [] = [] from by rw [wrapRec]]
      rw [show to_dictFold [] = [] from by rw [to_dictFold]]
      simp
  | cons hd2 tl ih =>
      obtain ⟨k1, v1⟩ := hd2
      rw [show plainDict ((k1, v1) :: tl) = (plainVal v1 && plainDict tl)
        from by rw [plainDict]] at hd
      rw [Bool.and_eq_true] at hd
      have ihtl := ih hd.2
      cases v1 with
      | prim x =>
          rw [show wrapRec ((k1, Val.prim x) :: tl) =
              (k1, Val.prim x) :: wrapRec tl from by rw [wrapRec]; simp]
          rw [show to_dictFold ((k1, Val.prim x) :: wrapRec tl) =
              to_dictFold (wrapRec tl) from by rw [to_dictFold]; simp]
          rw [ihtl]
          constructor
          · rintro ⟨k, c, rfl, hm⟩
            exact ⟨k, c, rfl, List.mem_cons_of_mem _ hm⟩
          · rintro ⟨k, c, rfl, hm⟩
            rcases List.mem_cons.mp hm with he | hm2
            · cases he
            · exact ⟨k, c, rfl, hm2⟩
      | pdict c1 =>
          rw [show wrapRec ((k1, Val.pdict c1) :: tl) =
              (k1, Val.nm (wrapRec c1)) :: wrapRec tl from by rw [wrapRec]]
          rw [show to_dictFold ((k1, Val.nm (wrapRec c1)) :: wrapRec tl) =
              (k1, Val.pdict (to_dict (wrapRec c1))) :: to_dictFold (wrapRec tl)
            from by rw [to_dictFold]]
          simp only [List.mem_cons]
          constructor
          · rintro (rfl | h)
            · exact ⟨k1, c1, rfl, Or.inl rfl⟩
            · obtain ⟨k, c, rfl, hm⟩ := ihtl.mp h
              exact ⟨k, c, rfl, Or.inr hm⟩
          · rintro ⟨k, c, rfl, hm⟩
            rcases hm with he | hm2
            · cases he
              exact Or.inl rfl
            · exact Or.inr (ihtl.mpr ⟨k, c, rfl, hm2⟩)
      | nm c1 =>
          rw [show plainVal (Val.nm c1) = false from by rw [plainVal]] at hd
          cases hd.1

theorem mem_to_dict_wrapRec {d : Dict} (hd : plainDict d = true)
    {e : Key × Val} :
    e ∈ to_dict (wrapRec d) ↔
      (e ∈ d ∧ ∃ x, e.2 = Val.prim x) ∨
        ∃ k c, e = (k, Val.pdict (to_dict (wrapRec c))) ∧
          (k, Val.pdict c) ∈ d := by
  rw [show to_dict (wrapRec d) =
      get_leaves (wrapRec d) ++ to_dictFold (wrapRec d) from by rw [to_dict]]
  rw [List.mem_append, mem_get_leaves_wrapRec hd, mem_to_dictFold_wrapRec hd]

theorem keysOf_to_dict_wrapRec {d : Dict} (hd : plainDict d = true)
    {x : Key} : x ∈ keysOf (to_dict (wrapRec d)) ↔ x ∈ keysOf d := by
  rw [mem_keysOf_iff, mem_keysOf_iff]
  constructor
  · rintro ⟨v, hv⟩
    rcases (mem_to_dict_wrapRec hd).mp hv with ⟨hm, _⟩ | ⟨k, c, he, hm⟩
    · exact ⟨v, hm⟩
    · cases he
      exact ⟨Val.pdict c, hm⟩
  · rintro ⟨v, hv⟩
    have hp := plainDict_mem hd hv
    cases v with
    | prim y =>
        exact ⟨Val.prim y, (mem_to_dict_wrapRec hd).mpr (Or.inl ⟨hv, y, rfl⟩)⟩
    | pdict c =>
        exact ⟨Val.pdict (to_dict (wrapRec c)),
          (mem_to_dict_wrapRec hd).mpr (Or.inr ⟨x, c, rfl, hv⟩)⟩
    | nm c =>
        rw [show plainVal (Val.nm c) = false from by rw [plainVal]] at hp
        cases hp

theorem dictSubEq_iff {a b : Dict} :
    dictSubEq a b = true ↔
      ∀ e ∈ a, ∃ w, lookupD b e.1 = some w ∧ valPyEq e.2 w = true := by
  induction a with
  | nil =>
      rw [show dictSubEq [] b = true from by rw [dictSubEq]]
      simp
  | cons hd tl ih =>
      obtain ⟨k, v⟩ := hd
      rw [show dictSubEq ((k, v) :: tl) b =
          ((match lookupD b k with
            | some w => valPyEq v w
            | none => false) && dictSubEq tl b) from by rw [dictSubEq]]
      rw [Bool.and_eq_true, ih]
      constructor
      · rintro ⟨h1, h2⟩
        intro e he
        rcases List.mem_cons.mp he with rfl | he2
        · cases hl : lookupD b k with
          | none => rw [hl] at h1; cases h1
          | some w =>
              rw [hl] at h1
              exact ⟨w, rfl, h1⟩
        · exact h2 e he2
      · intro h
        constructor
        · obtain ⟨w, hw, hv⟩ := h (k, v) (List.mem_cons_self _ _)
          rw [hw]
          exact hv
        · exact fun e he => h e (List.mem_cons_of_mem _ he)

theorem keysSubset_iff {b a : Dict} :
    keysSubset b a = true ↔ ∀ e ∈ b, hasKey a e.1 = true := by
  simp [keysSubset, List.all_eq_true]

theorem roundtrip_core :
    ∀ d : Dict, plainDict d = true → (plainKeys d).Nodup →
      dictPyEq (to_dict (wrapRec d)) d = true := by
  intro d
  induction d using dictSizeInd with
  | step d ih =>
      intro hpl hnd
      have hndk : (keysOf d).Nodup := (keysOf_sublist_plainKeys d).nodup hnd
      rw [dictPyEq, Bool.and_eq_true]
      constructor
      · rw [dictSubEq_iff]
        intro e he
        rcases (mem_to_dict_wrapRec hpl).mp he with ⟨hm, x, hx⟩ | ⟨k, c, he2, hm⟩
        · refine ⟨e.2, ?_, ?_⟩
          · have : (e.1, e.2) ∈ d := by
              obtain ⟨k1, v1⟩ := e
              exact hm
            exact mem_lookupD hndk this
          · rw [hx]
            rw [show valPyEq (Val.prim x) (Val.prim x) = (x == x)
              from by rw [valPyEq]]
            simp
        · cases he2
          have hlk : lookupD d k = some (Val.pdict c) := mem_lookupD hndk hm
          refine ⟨Val.pdict c, hlk, ?_⟩
          rw [show valPyEq (Val.pdict (to_dict (wrapRec c))) (Val.pdict c) =
              (dictSubEq (to_dict (wrapRec c)) c &&
                keysSubset c (to_dict (wrapRec c)))
            from by rw [valPyEq]]
          have hsz : sizeOf c < sizeOf d := by
            have h2 := sizeOf_snd_lt_of_mem hm
            simp only [Val.pdict.sizeOf_spec] at h2
            omega
          have hplc : plainDict c = true :=
            plainVal_pdict (plainDict_mem hpl hm)
          have hndc : (plainKeys c).Nodup :=
            (plainKeys_sublist_of_mem hm).nodup hnd
          have hrt := ih c hsz hplc hndc
          rw [dictPyEq, Bool.and_eq_true] at hrt
          rw [hrt.1, hrt.2]
          rfl
      · rw [keysSubset_iff]
        intro e he
        rw [hasKey_iff_mem]
        refine (keysOf_to_dict_wrapRec hpl).mpr ?_
        rw [mem_keysOf_iff]
        obtain ⟨k1, v1⟩ := e
        exact ⟨v1, he⟩

/-! ### Auxiliary facts for plain-dictionary leaves -/

theorem getitem_absent {d : Dict} {key : Key} (h : key ∉ allKeys d) :
    getitem d key = .error (.keyError key) := by
  rw [getitem, find_data_absent h]

theorem get_children_append (a b : Dict) :
    get_children (a ++ b) = get_children a ++ get_children b := by
  simp [get_children]

theorem nodup_append_singleton {l : List Key} {k : Key}
    (h1 : l.Nodup) (h2 : k ∉ l) : (l ++ [k]).Nodup := by
  rw [List.nodup_append]
  refine ⟨h1, List.nodup_singleton k, ?_⟩
  intro a ha hb
  simp only [List.mem_singleton] at hb
  subst hb
  exact h2 ha

/-! ### The claims -/

/-- C1: the claim says that on a tree holding the same key in two or more
nodes, `get`, `delete` and validated construction fail with
`MultipleKeyError`.  The code does not do this: inside `find_data_` the
`raise MultipleKeyError(key)` is caught by that very loop's
`except KeyError: pass` (`MultipleKeyError` subclasses `KeyError`), so on
`{"a": 1, "sub": {"a": 2}}` reading `"a"` returns the value of the *last*
occurrence found (the nested `2`), deleting `"a"` silently removes the
nested occurrence, and construction with `check=True` succeeds.  This
contradicts the source's own docstrings ("Raises MultipleKeyError: if the
input key matches several entries in the structure") and makes the
`except MultipleKeyError` handler in `__init__` dead code. -/
theorem c1_duplicate_key_operations :
    getitem dupTree "a" = .ok (Val.prim 2) ∧
      delitem dupTree "a" = .ok [("a", Val.prim 1), ("sub", Val.nm [])] ∧
      initNM 9 9 dupTreeRaw true true = some (.ok dupTree) := by
  refine ⟨?_, ?_, ?_⟩
  · simp [dupTree, getitem, find_data, findFold, hasKey, lookupD, getData]
  · simp [dupTree, delitem, find_data, findFold, hasKey, lookupD, modAtPath,
      delK]
  · simp [dupTree, dupTreeRaw, initNM, wrapRec, runIter, runTrace, nextIter,
      initIter, keysOf, checkKeys, getitem, find_data, findFold, hasKey,
      lookupD, getData]

/-- C2: the claim says `set` on an ambiguous key fails with
`MultipleKeyError` and never silently resolves the target.  The code
silently overwrites the last-found occurrence instead (here the nested one),
because `find_data_` never lets a `MultipleKeyError` escape; and `set` in
fact never raises at all (the write-path exception is caught by
`except KeyError`, which matches both error classes). -/
theorem c2_ambiguous_set_resolves_silently :
    setitem dupTree "a" (Val.prim 99) =
        [("a", Val.prim 1), ("sub", Val.nm [("a", Val.prim 99)])] ∧
      (∀ (d : Dict) (key : Key) (v : Val), (setitemSt d key v).1 = .ok ()) := by
  constructor
  · simp [dupTree, setitem, find_data, findFold, hasKey, lookupD, modAtPath,
      setK]
  · intro d key v
    cases hf : find_data d key <;> simp [setitemSt, hf]

/-- C3: a `set` or `delete` call that fails with an error leaves the tree
exactly as it was.  `set` never fails at all; a failing `delete` raises out
of `find_data_`, which performs no mutation, so the post-state equals the
pre-state. -/
theorem c3_failed_ops_no_mutation (d : Dict) (key : Key) (v : Val)
    (e : PyErr) :
    (setitemSt d key v).1 = .ok () ∧
      ((delitemSt d key).1 = .error e → (delitemSt d key).2 = d) := by
  constructor
  · cases hf : find_data d key <;> simp [setitemSt, hf]
  · intro h
    cases hf : find_data d key with
    | ok p => simp [delitemSt, hf] at h
    | error e2 => simp [delitemSt, hf]

/-- Witness for C3 at a concrete input: deleting from the empty tree fails
with `KeyError` and leaves the tree unchanged, while `set` succeeds. -/
theorem c3_failed_ops_no_mutation_witness :
    (delitemSt ([] : Dict) "a").1 = .error (.keyError "a") ∧
      (setitemSt ([] : Dict) "a" (Val.prim 0)).1 = .ok () ∧
      (delitemSt ([] : Dict) "a").2 = [] := by
  have hdel : (delitemSt ([] : Dict) "a").1 = .error (.keyError "a") := by
    simp [delitemSt, find_data, findFold, hasKey, lookupD]
  exact ⟨hdel, (c3_failed_ops_no_mutation [] "a" (Val.prim 0)
      (.keyError "a")).1,
    (c3_failed_ops_no_mutation [] "a" (Val.prim 0) (.keyError "a")).2 hdel⟩

/-- C4: for an acyclic plain hierarchical input with no duplicate keys
anywhere, wrapping it recursively into a `NestedMapping` and flattening it
back with `to_dict` yields a structure that is `==`-equal (Python dictionary
equality: same keys, equal values, insertion order ignored) to the input.
Acyclicity is inherent to the inductive `Val`. -/
theorem c4_roundtrip (d : Dict) (h1 : plainDict d = true)
    (h2 : (plainKeys d).Nodup) :
    dictPyEq (to_dict (wrapRec d)) d = true :=
  roundtrip_core d h1 h2

/-- Witness for C4 on `{"a": 1, "sub": {"b": 2}}`. -/
theorem c4_roundtrip_witness :
    plainDict plainTreeEx = true ∧ (plainKeys plainTreeEx).Nodup ∧
      dictPyEq (to_dict (wrapRec plainTreeEx)) plainTreeEx = true := by
  have h1 : plainDict plainTreeEx = true := by
    simp [plainTreeEx, plainDict, plainVal]
  have h2 : (plainKeys plainTreeEx).Nodup := by
    simp [plainTreeEx, plainKeys, plainValKeys]
  exact ⟨h1, h2, c4_roundtrip plainTreeEx h1 h2⟩

/-- C5: `__len__` equals the number of leaf keys reachable from the root
across all depths (branch names are never counted), and it satisfies the
stated formula: local entry count minus local branch count plus the sum of
the children's sizes. -/
theorem c5_size_flat_count (d : Dict) :
    nmSize d = (leafKeys d).length ∧
      nmSize d = d.length - (get_children d).length + sizeSum d ∧
      sizeSum d = ((get_children d).map (fun e => nmSize e.2)).sum := by
  refine ⟨nmSize_eq_leafKeys d, ?_, sizeSum_children d⟩
  rw [nmSize_formula, length_partition d]
  omega

/-- C6: the claim (and the spec, which promises end-of-sequence once the
stack empties) says full iteration of every duplicate-free tree runs to
clean exhaustion.  The code does not: whenever a branch entry is consumed
after the final leaf, the recursive call that line 33 places *inside* the
`try` catches the terminal `StopIteration` and `iter_stack.pop(-1)` then
pops from the already-empty stack, raising `IndexError`.  Evaluated here on
duplicate-free inputs: on `{"sub": {}}` the very first `__next__` call
raises `IndexError`; on `{"b": 2, "sub": {}}` the iterator yields
`"b"` and then crashes instead of signalling end-of-sequence; and checked
construction of `NestedMapping({"sub": {}})` propagates the
`IndexError` out of `__init__`.  (The yields themselves are still exactly
the depth-first leaf keys, and a fresh call on an emptied stack still
raises `StopIteration`: the crash is confined to the draining call, as
`runTrace_leafKeys` and `nextIter_exhausted` show.) -/
theorem c6_trailing_branch_index_error :
    (allKeys [("sub", Val.nm [])]).Nodup ∧
      nextIter 9 (initIter [("sub", Val.nm [])]) =
        some (IterStep.raised PyErr.indexError) ∧
      runTrace 9 9 (initIter [("b", Val.prim 2), ("sub", Val.nm [])]) =
        some (["b"], Except.error PyErr.indexError) ∧
      initNM 9 9 [("sub", Val.pdict [])] true true =
        some (Except.error PyErr.indexError) := by
  refine ⟨by simp [allKeys, valKeys], ?_, ?_, ?_⟩
  · simp [nextIter, initIter, keysOf, getitem, find_data, findFold, hasKey,
      lookupD, getData]
  · simp [runTrace, nextIter, initIter, keysOf, getitem, find_data,
      findFold, hasKey, lookupD, getData]
  · simp [initNM, wrapRec, runIter, runTrace, nextIter, initIter, keysOf,
      checkKeys, getitem, find_data, findFold, hasKey, lookupD, getData]

/-- C7 counterexample: the claim quantifies over every stored value, but
when the written value is itself a `NestedMapping` that contains the fresh
key, a subsequent `get` of that key does not return the value just written:
on the empty tree, `set("a", NestedMapping({"a": 5}))` succeeds and lands at
the root, yet `get("a")` then returns `5` (the occurrence inside the written
branch, which the search prefers as the last candidate), not the branch that
was written. -/
theorem c7_counterexample :
    setitem [] "a" (Val.nm [("a", Val.prim 5)]) =
        [("a", Val.nm [("a", Val.prim 5)])] ∧
      getitem (setitem [] "a" (Val.nm [("a", Val.prim 5)])) "a" =
        .ok (Val.prim 5) ∧
      getitem (setitem [] "a" (Val.nm [("a", Val.prim 5)])) "a" ≠
        .ok (Val.nm [("a", Val.prim 5)]) := by
  refine ⟨?_, ?_, ?_⟩
  · simp [setitem, find_data, findFold, hasKey, lookupD, setK]
  · simp [setitem, getitem, find_data, findFold, hasKey, lookupD, getData,
      setK]
  · simp [setitem, getitem, find_data, findFold, hasKey, lookupD, getData,
      setK]

/-- C7 (amended): for every tree in which a key does not occur at any node,
and every value that does not itself contain that key inside a
`NestedMapping`, `set` of that key succeeds; afterwards `get` of that key
returns the value just written, and the key is present in the root node's
direct entries (the search resolves it at the empty path, i.e. not nested in
any branch). -/
theorem c7_new_key_placement {d : Dict} {key : Key} {v : Val}
    (h1 : key ∉ allKeys d) (h2 : key ∉ valKeys v) :
    setitem d key v = d ++ [(key, v)] ∧
      getitem (setitem d key v) key = .ok v ∧
      hasKey (setitem d key v) key = true ∧
      find_data (setitem d key v) key = .ok [] := by
  have hs := setitem_fresh (v := v) h1
  refine ⟨hs, ?_, ?_, ?_⟩
  · rw [hs]
    exact getitem_after_fresh h1 h2
  · rw [hs, hasKey, lookupD_append_fresh (hasKey_false_of_not_allKeys h1)]
    rfl
  · rw [hs]
    exact find_data_fresh h1 h2

/-- Witness for the amended C7: inserting a fresh `"c"` into
`{"b": 0}`. -/
theorem c7_new_key_placement_witness :
    ("c" ∉ allKeys [("b", Val.prim 0)]) ∧
      ("c" ∉ valKeys (Val.prim 7)) ∧
      setitem [("b", Val.prim 0)] "c" (Val.prim 7) =
        [("b", Val.prim 0), ("c", Val.prim 7)] ∧
      getitem (setitem [("b", Val.prim 0)] "c" (Val.prim 7)) "c" =
        .ok (Val.prim 7) := by
  have h1 : "c" ∉ allKeys [("b", Val.prim 0)] := by
    simp [allKeys, valKeys]
  have h2 : "c" ∉ valKeys (Val.prim 7) := by
    simp [valKeys]
  obtain ⟨ha, hb, _, _⟩ := c7_new_key_placement h1 h2
  exact ⟨h1, h2, ha, hb⟩

/-- C8: when a key occurs in exactly one node of the tree and not at the
root (depth > 0), `set` writes through the owner handle: the owner's
dictionary now maps the key to the new value, while the root's direct
entries are untouched (same key list, same leaf entries — no copy of the key
appears at the root).  Each node of the tree is assumed to be a genuine
Python dictionary (no repeated keys within a single node). -/
theorem c8_existing_key_edit_in_place {t : Dict} {key : Key} (v : Val)
    (hwf : ∀ n, SubNode t n → (keysOf n).Nodup)
    (hcnt : (allKeys t).count key = 1) (hroot : hasKey t key = false) :
    ∃ p owner, find_data t key = .ok p ∧ p ≠ [] ∧
      getData t p = some owner ∧
      setitem t key v = modAtPath (fun o => setK o key v) t p ∧
      getData (setitem t key v) p = some (setK owner key v) ∧
      lookupD (setK owner key v) key = some v ∧
      keysOf (setitem t key v) = keysOf t ∧
      get_leaves (setitem t key v) = get_leaves t := by
  obtain ⟨p, owner, hf, hne, hg, hk, hsn⟩ := find_data_single hwf hcnt hroot
  have hset : setitem t key v = modAtPath (fun o => setK o key v) t p := by
    rw [setitem, hf]
  obtain ⟨k0, p', rfl⟩ : ∃ k0 p', p = k0 :: p' := by
    cases p with
    | nil => exact absurd rfl hne
    | cons k0 p' => exact ⟨k0, p', rfl⟩
  refine ⟨k0 :: p', owner, hf, hne, hg, hset, ?_,
    lookupD_setK_self owner key v, ?_, ?_⟩
  · rw [hset]
    exact getData_modAtPath _ _ t owner hg
  · rw [hset]
    exact keysOf_modAtPath _ t k0 p'
  · rw [hset]
    exact get_leaves_modAtPath _ t k0 p'

/-- Witness for C8: editing `"b"`, which lives only at depth 1 of
`{"a": 1, "sub": {"b": 2}}`. -/
theorem c8_existing_key_edit_in_place_witness :
    ((allKeys dupFreeTree).count "b" = 1) ∧
      (hasKey dupFreeTree "b" = false) ∧
      ∃ p owner, find_data dupFreeTree "b" = .ok p ∧ p ≠ [] ∧
        getData dupFreeTree p = some owner ∧
        setitem dupFreeTree "b" (Val.prim 7) =
          modAtPath (fun o => setK o "b" (Val.prim 7)) dupFreeTree p ∧
        getData (setitem dupFreeTree "b" (Val.prim 7)) p =
          some (setK owner "b" (Val.prim 7)) ∧
        lookupD (setK owner "b" (Val.prim 7)) "b" = some (Val.prim 7) ∧
        keysOf (setitem dupFreeTree "b" (Val.prim 7)) = keysOf dupFreeTree ∧
        get_leaves (setitem dupFreeTree "b" (Val.prim 7)) =
          get_leaves dupFreeTree := by
  have hnd : (allKeys dupFreeTree).Nodup := by
    simp [dupFreeTree, allKeys, valKeys]
  have hcnt : (allKeys dupFreeTree).count "b" = 1 := by
    simp [dupFreeTree, allKeys, valKeys]
  have hroot : hasKey dupFreeTree "b" = false := by
    simp [dupFreeTree, hasKey, lookupD]
  exact ⟨hcnt, hroot, c8_existing_key_edit_in_place (Val.prim 7)
    (nodesWF_of_nodup hnd) hcnt hroot⟩

/-- C9: `MultipleKeyError` is declared as a subclass of `KeyError`, so at
the public interface every failure of `get` or `delete` is an exception that
an `except KeyError` handler catches — a caller catching the not-found error
also catches the duplicate-key error, exactly as the internal
`except KeyError` handlers do. -/
theorem c9_duplicate_error_subclass (d : Dict) (key : Key) (e : PyErr)
    (h : getitem d key = .error e ∨ delitem d key = .error e) :
    PyErr.caughtByKeyError e = true ∧
      PyErr.caughtByKeyError (PyErr.multipleKeyError key) = true := by
  refine ⟨?_, rfl⟩
  rcases h with h | h
  · rw [getitem_error_eq h]
    rfl
  · rw [delitem_error_eq h]
    rfl

/-- Witness for C9: a failing `get` on the empty tree. -/
theorem c9_duplicate_error_subclass_witness :
    (getitem ([] : Dict) "a" = .error (.keyError "a") ∨
        delitem ([] : Dict) "a" = .error (.keyError "a")) ∧
      PyErr.caughtByKeyError (.keyError "a") = true ∧
      PyErr.caughtByKeyError (.multipleKeyError "a") = true := by
  have hget : getitem ([] : Dict) "a" = .error (.keyError "a") := by
    simp [getitem, find_data, findFold, hasKey, lookupD]
  exact ⟨Or.inl hget,
    c9_duplicate_error_subclass [] "a" (.keyError "a") (Or.inl hget)⟩

/-- C10: a plain (un-wrapped) dictionary value is an opaque leaf: inserting
it under a fresh key lands it at the root as one entry, it contributes
exactly one element to `__len__`, it is not listed by `get_children`, a key
occurring only inside it is not reachable (`get` fails with `KeyError`),
iteration yields its key as a leaf without descending into it, and
non-recursive, non-validating construction leaves such values un-wrapped. -/
theorem c10_plain_dict_is_opaque_leaf {t c : Dict} {k j : Key}
    (hnd : (allKeys t).Nodup) (hk : k ∉ allKeys t)
    (hj1 : j ∈ keysOf c) (hj2 : j ∉ allKeys t) (hj3 : j ≠ k) :
    setitem t k (Val.pdict c) = t ++ [(k, Val.pdict c)] ∧
      nmSize (setitem t k (Val.pdict c)) = nmSize t + 1 ∧
      get_children (setitem t k (Val.pdict c)) = get_children t ∧
      getitem (setitem t k (Val.pdict c)) j = .error (.keyError j) ∧
      runIter (entFuel (setitem t k (Val.pdict c)) + 2)
          (entFuel (setitem t k (Val.pdict c)) + 2)
          (initIter (setitem t k (Val.pdict c))) =
        some (Except.ok (leafKeys t ++ [k])) ∧
      (∀ fo fi, initNM fo fi (setitem t k (Val.pdict c)) false false =
        some (Except.ok (setitem t k (Val.pdict c)))) := by
  have hs : setitem t k (Val.pdict c) = t ++ [(k, Val.pdict c)] :=
    setitem_fresh hk
  have hall : allKeys (t ++ [(k, Val.pdict c)]) = allKeys t ++ [k] := by
    rw [allKeys_append]
    simp [allKeys, valKeys]
  have hleaf : leafKeys (t ++ [(k, Val.pdict c)]) = leafKeys t ++ [k] := by
    rw [leafKeys_append]
    simp [leafKeys]
  refine ⟨hs, ?_, ?_, ?_, ?_, ?_⟩
  · rw [hs, nmSize_eq_leafKeys, hleaf, List.length_append,
      ← nmSize_eq_leafKeys]
    rfl
  · rw [hs, get_children_append]
    simp [get_children]
  · rw [hs]
    refine getitem_absent ?_
    rw [hall, List.mem_append]
    push_neg
    exact ⟨hj2, by simp [hj3]⟩
  · rw [hs]
    have hnd2 : (allKeys (t ++ [(k, Val.pdict c)])).Nodup := by
      rw [hall]
      exact nodup_append_singleton hnd hk
    rw [← hleaf]
    exact runIter_leafKeys hnd2 (endsClean_append_leaf t k c)
  · intro fo fi
    rfl

/-- Witness for C10: inserting the plain dictionary `{"x": 3}` under the
fresh key `"p"` into the tree `{"a": 1}`. -/
theorem c10_plain_dict_is_opaque_leaf_witness :
    ((allKeys [("a", Val.prim 1)]).Nodup) ∧
      ("p" ∉ allKeys [("a", Val.prim 1)]) ∧
      ("x" ∈ keysOf [("x", Val.prim 3)]) ∧
      ("x" ∉ allKeys [("a", Val.prim 1)]) ∧
      ("x" ≠ "p") ∧
      setitem [("a", Val.prim 1)] "p" (Val.pdict [("x", Val.prim 3)]) =
        [("a", Val.prim 1), ("p", Val.pdict [("x", Val.prim 3)])] ∧
      nmSize (setitem [("a", Val.prim 1)] "p"
          (Val.pdict [("x", Val.prim 3)])) =
        nmSize [("a", Val.prim 1)] + 1 ∧
      getitem (setitem [("a", Val.prim 1)] "p"
          (Val.pdict [("x", Val.prim 3)])) "x" = .error (.keyError "x") := by
  have h0 : (allKeys [("a", Val.prim 1)]).Nodup := by
    simp [allKeys, valKeys]
  have h1 : "p" ∉ allKeys [("a", Val.prim 1)] := by
    simp [allKeys, valKeys]
  have h2 : "x" ∈ keysOf [("x", Val.prim 3)] := by
    simp [keysOf]
  have h3 : "x" ∉ allKeys [("a", Val.prim 1)] := by
    simp [allKeys, valKeys]
  have h4 : ("x" : Key) ≠ "p" := by simp
  obtain ⟨ha, hb, _, hd, _, _⟩ :=
    c10_plain_dict_is_opaque_leaf h0 h1 h2 h3 h4
  exact ⟨h0, h1, h2, h3, h4, ha, hb, hd⟩

end DictWrapper
